import Mathlib

/-!
Verification of the Yamada substitute-edge computation.

A shallow embedding of `yamada.py` (substitute-edge search for spanning
trees, after Yamada et al. 2010) together with proofs about it.

Graphs are finite, undirected and weighted.  They are embedded as a list
of nodes plus a list of edges carrying an optional weight attribute,
mirroring the `networkx.Graph` data the code manipulates.  Node and
neighbour enumeration order is the list order, playing the role of
networkx insertion order.  The random root used by `Substitute.substitute`
is an explicit parameter.
-/

namespace Yamada

/-- Weighted edge triple `(w, u, v)` as used by the algorithm. -/
abbrev WEdge := Nat × Nat × Nat

/-- The substitute dictionary: keys are node pairs, values lists of edges. -/
abbrev Dict := List ((Nat × Nat) × List (Nat × Nat))

/-- An undirected weighted graph: nodes, and edges `((u,v), weight?)`.
The optional weight models the `'weight'` attribute of a networkx edge. -/
structure Gr where
  nodes : List Nat
  edges : List ((Nat × Nat) × Option Nat)
deriving Repr, DecidableEq

/-- Neighbours of `n`, in edge-list order (models `nx.neighbors`). -/
def adjOf (g : Gr) (n : Nat) : List Nat :=
  g.edges.filterMap fun e =>
    if e.1.1 = n then some e.1.2
    else if e.1.2 = n then some e.1.1 else none

/-- Undirected edge membership, as `(u, v) in G.edges()` in networkx. -/
def hasEdge (g : Gr) (u v : Nat) : Bool :=
  g.edges.any fun e => decide (e.1 = (u, v) ∨ e.1 = (v, u))

/-- `G.get_edge_data(u, v)['weight']`, as an optional value. -/
def weightUV (g : Gr) (u v : Nat) : Option Nat :=
  (g.edges.find? fun e => decide (e.1 = (u, v) ∨ e.1 = (v, u))).bind (·.2)

/-- One round of neighbourhood expansion for a reachability closure. -/
def expandStep (step : Nat → List Nat) (l : List Nat) : List Nat :=
  (l ++ l.flatMap step).dedup

/-- Iterated expansion: all nodes reachable from `l` in at most `fuel` steps. -/
def closure (step : Nat → List Nat) : Nat → List Nat → List Nat
  | 0, l => l
  | f + 1, l => closure step f (expandStep step l)

/-- `is_weighted` from the source: every edge has a weight attribute. -/
def is_weighted (g : Gr) : Bool :=
  g.edges.all fun e => e.2.isSome

/-- `has_self_cycles` from the source. -/
def has_self_cycles (g : Gr) : Bool :=
  g.nodes.any fun n => g.edges.any fun e => decide (e.1 = (n, n))

/-- `nx.is_connected`: every node is reachable from the first node. -/
def is_connected (g : Gr) : Bool :=
  match g.nodes with
  | [] => false
  | r :: _ => g.nodes.all fun x => decide (x ∈ closure (adjOf g) g.nodes.length [r])

/-- Number of distinct undirected edges (networkx collapses orientations). -/
def normPair (p : Nat × Nat) : Nat × Nat :=
  if p.1 ≤ p.2 then p else (p.2, p.1)

/-- `G.number_of_edges()`. -/
def numEdges (g : Gr) : Nat :=
  (g.edges.map fun e => normPair e.1).dedup.length

/-- `check_input_graph` from the source: connected, no self-cycles, weighted. -/
def check_input_graph (g : Gr) : Except String Unit :=
  if ¬ is_connected g then .error "Input graph must be a connected."
  else if has_self_cycles g then .error "Input graph must have no self-cycles."
  else if ¬ is_weighted g then .error "Input graph must have weighted edges."
  else .ok ()

/-- `nx.is_tree`: nonempty, connected, with node-count-minus-one edges. -/
def is_tree (g : Gr) : Bool :=
  decide (g.nodes ≠ []) && decide (numEdges g = g.nodes.length - 1) && is_connected g

/-- `is_tree_of_graph` from the source: all child edges are parent edges
(undirected membership) and the child is a tree. -/
def is_tree_of_graph (child parent : Gr) : Bool :=
  child.edges.all (fun e => hasEdge parent e.1.1 e.1.2) && is_tree child

/-- `check_input_tree` from the source. -/
def check_input_tree (tree parent_graph : Gr) : Except String Unit :=
  match check_input_graph tree with
  | .error m => .error m
  | .ok () =>
    if ¬ is_tree_of_graph tree parent_graph then .error "Input tree is not a spanning tree."
    else .ok ()

/-- `Yamada.is_admissible`: all fixed edges in the tree (undirected
membership), and the restricted set disjoint from the stored edge tuples. -/
def is_admissible (tree : Gr) (fixed_edges restricted_edges : List (Nat × Nat)) : Bool :=
  fixed_edges.all (fun e => hasEdge tree e.1 e.2) &&
    restricted_edges.all (fun r => ¬ tree.edges.any fun e => decide (e.1 = r))

/-- `tree.to_directed()`: both orientations of every edge. -/
def to_directed (t : Gr) : List (Nat × Nat) :=
  t.edges.flatMap fun e => [(e.1.1, e.1.2), (e.1.2, e.1.1)]

/-- Successors of `n` in an arc list (models `nx.neighbors` on a `DiGraph`). -/
def arcAdj (arcs : List (Nat × Nat)) (n : Nat) : List Nat :=
  arcs.filterMap fun a => if a.1 = n then some a.2 else none

/-- Position of `x` in a list (length of the list if absent). -/
def idxIn : List Nat → Nat → Nat
  | [], _ => 0
  | a :: l, x => if a = x then 0 else idxIn l x + 1

/-- Postorder rank: one-based position in the postorder node list. -/
def rankOf (order : List Nat) (x : Nat) : Nat :=
  idxIn order x + 1

/-- Process one worklist of neighbours during depth-first search.  The
accumulator holds the visited list and the postorder output so far;
`visitF` performs the recursive visit of one unvisited node. -/
def dfsFold (visitF : List Nat → Nat → List Nat × List Nat) :
    List Nat × List Nat → List Nat → List Nat × List Nat
  | acc, [] => acc
  | acc, w :: ws =>
    if w ∈ acc.1 then dfsFold visitF acc ws
    else
      let r := visitF acc.1 w
      dfsFold visitF (r.1, acc.2 ++ r.2) ws

/-- Depth-first search with postorder output.  Models the external
`nx.dfs_postorder_nodes` traversal primitive of §4.2 of the specification:
a traversal oriented away from the root, marking nodes at discovery and
emitting them in postorder; `fuel` bounds the recursion depth.  Returns
the final visited list and the postorder list of newly visited nodes. -/
def dfsVisit (adj : Nat → List Nat) : Nat → List Nat → Nat → List Nat × List Nat
  | 0, vis, _ => (vis, [])
  | f + 1, vis, u =>
    let r := dfsFold (dfsVisit adj f) (vis ++ [u], []) (adj u)
    (r.1, r.2 ++ [u])

/-- The edge-pruning loop of `postorder_tree`: walking the node order,
each node drops its arcs to not-yet-ranked neighbours. -/
def pruneArcs (arcs0 : List (Nat × Nat)) (order : List Nat) : List (Nat × Nat) :=
  (order.foldl
    (fun (st : List (Nat × Nat) × List Nat) node =>
      let seen := st.2 ++ [node]
      (st.1.filter fun a => decide (¬ (a.1 = node ∧ a.2 ∉ seen)), seen))
    (arcs0, [])).1

/-- Ranks of a node and of everything reachable from it in the pruned
arc forest, sorted ascending (the code's `descendants[node]`). -/
def descOf (arcs : List (Nat × Nat)) (order : List Nat) (x : Nat) : List Nat :=
  ((closure (arcAdj arcs) order.length [x]).map (rankOf order)).insertionSort (· ≤ ·)

/-- Dictionary lookup in the descendants table (empty list if absent). -/
def descLookup (d : List (Nat × List Nat)) (x : Nat) : List Nat :=
  ((d.find? fun kv => decide (kv.1 = x)).map (·.2)).getD []

/-- The node order used for ranking: the trusted node list on the fast
path (`ordered = true`), otherwise a DFS postorder from the given root. -/
def runOrder (t : Gr) (ordered : Bool) (root : Nat) : List Nat :=
  if ordered then t.nodes
  else (dfsVisit (arcAdj (to_directed t)) t.nodes.length [] root).2

/-- The pruned (parent-to-child) arc forest left by `postorder_tree`. -/
def runArcs (t : Gr) (ordered : Bool) (root : Nat) : List (Nat × Nat) :=
  pruneArcs (to_directed t) (runOrder t ordered root)

/-- The descendants table computed by `postorder_tree`. -/
def runDesc (t : Gr) (ordered : Bool) (root : Nat) : List (Nat × List Nat) :=
  (runOrder t ordered root).map fun x =>
    (x, descOf (runArcs t ordered root) (runOrder t ordered root) x)

/-- Comparison used to sort `postordered_edges`: ascending in the rank of
the second component, then in the rank of the third. -/
def edgeKeyLe (order : List Nat) (e1 e2 : WEdge) : Prop :=
  rankOf order e1.2.1 < rankOf order e2.2.1 ∨
    (rankOf order e1.2.1 = rankOf order e2.2.1 ∧ rankOf order e1.2.2 ≤ rankOf order e2.2.2)

instance (order : List Nat) : DecidableRel (edgeKeyLe order) := fun e1 e2 => by
  unfold edgeKeyLe; infer_instance

/-- `postordered_edges`: each pruned arc `(u, v)` becomes `(w, v, u)`
(weight, child, parent), sorted by (rank of child, rank of parent). -/
def postorderedEdges (g : Gr) (arcs : List (Nat × Nat)) (order : List Nat) : List WEdge :=
  (arcs.map fun a => ((weightUV g a.1 a.2).getD 0, a.2, a.1)).insertionSort (edgeKeyLe order)

/-- The postordered, weighted tree edges of one run. -/
def runOrderedEdges (g t : Gr) (ordered : Bool) (root : Nat) : List WEdge :=
  postorderedEdges g (runArcs t ordered root) (runOrder t ordered root)

/-- `find_incident_edges`: weighted incident edges of `node` that are not
in the restricted tuple set and not tree edges (undirected membership). -/
def findIncidentEdges (g tree : Gr) (restricted : List (Nat × Nat)) (node : Nat) :
    List WEdge :=
  (adjOf g node).filterMap fun nb =>
    if (node, nb) ∈ restricted then none
    else if hasEdge tree node nb then none
    else some ((weightUV g node nb).getD 0, node, nb)

/-- Weighted-triple order of the quasi-cut `SortedSet`: by weight, then
source, then target. -/
def wedgeLe (a b : WEdge) : Prop :=
  a.1 < b.1 ∨ (a.1 = b.1 ∧ (a.2.1 < b.2.1 ∨ (a.2.1 = b.2.1 ∧ a.2.2 ≤ b.2.2)))

instance : DecidableRel wedgeLe := fun a b => by
  unfold wedgeLe; infer_instance

/-- Idempotent insertion into the sorted quasi-cut set. -/
def qcAdd (qc : List WEdge) (e : WEdge) : List WEdge :=
  if e ∈ qc then qc else qc.orderedInsert wedgeLe e

/-- Step 2.1 of `substitute` for one incident edge: the three
classification cases, written as three sequential conditionals exactly as
in the source. -/
def classifyStep (order : List Nat) (desc : List (Nat × List Nat))
    (qc0 : List WEdge) (ie : WEdge) : List WEdge :=
  let rev : WEdge := (ie.1, ie.2.2, ie.2.1)
  let d := descLookup desc ie.2.1
  let r := rankOf order ie.2.2
  let qc1 := if r < d.headD 0 then qcAdd (qc0.erase rev) ie else qc0
  let qc2 := if r ∈ d then qc1.erase rev else qc1
  if d.getLastD 0 < r then qcAdd qc2 ie else qc2

/-- `equal_weight_descendant`: first quasi-cut entry (in sorted order)
whose second component has rank inside the descendant set of the query
edge's second component, with equal weight. -/
def equalWeightDescendant (order : List Nat) (desc : List (Nat × List Nat))
    (qc : List WEdge) (we : WEdge) : Option WEdge :=
  qc.find? fun c => decide (rankOf order c.2.1 ∈ descLookup desc we.2.1 ∧ c.1 = we.1)

/-- Modelled from the spec: the `find-first-matching(weight, node)`
operation as §4.3 words it, testing the rank of the entry's *target*
(third component) against the descendant set.  Stated only to compare
with `equalWeightDescendant`, which is translated from the code. -/
def findFirstMatchingSpec (order : List Nat) (desc : List (Nat × List Nat))
    (qc : List WEdge) (we : WEdge) : Option WEdge :=
  qc.find? fun c => decide (rankOf order c.2.2 ∈ descLookup desc we.2.1 ∧ c.1 = we.1)

/-- Steps 2.2.a-c of `substitute`: repeatedly query the quasi-cut set,
discarding entries whose target rank still lies inside the subtree, until
a bridging entry is found (returned) or nothing matches. -/
def searchLoop (order : List Nat) (desc : List (Nat × List Nat)) (node : Nat)
    (we : WEdge) : Nat → List WEdge → Option (Nat × Nat) × List WEdge
  | 0, qc => (none, qc)
  | f + 1, qc =>
    match equalWeightDescendant order desc qc we with
    | none => (none, qc)
    | some c =>
      if rankOf order c.2.2 ∈ descLookup desc node then
        searchLoop order desc node we f (qc.erase c)
      else (some c.2, qc)

/-- Append a substitute to one key of the dictionary. -/
def updateDict (d : Dict) (k : Nat × Nat) (e : Nat × Nat) : Dict :=
  d.map fun kv => if kv.1 = k then (kv.1, kv.2 ++ [e]) else kv

/-- Step 2 of `substitute` for one postordered tree edge. -/
def subStep (g tree : Gr) (fixed : List WEdge) (restricted : List (Nat × Nat))
    (order : List Nat) (desc : List (Nat × List Nat))
    (st : List WEdge × Dict) (ne : WEdge) : List WEdge × Dict :=
  let node := ne.2.1
  let qc1 := (findIncidentEdges g tree restricted node).foldl (classifyStep order desc) st.1
  if ne ∈ fixed then (qc1, st.2)
  else
    let r := searchLoop order desc node ne (qc1.length + 1) qc1
    (r.2, match r.1 with
      | none => st.2
      | some e => updateDict st.2 ne.2 e)

/-- The whole `substitute()` computation: final quasi-cut set and the
substitute dictionary. -/
def runSubstitute (g t : Gr) (fixed : List WEdge) (restricted : List (Nat × Nat))
    (ordered : Bool) (root : Nat) : List WEdge × Dict :=
  let oe := runOrderedEdges g t ordered root
  oe.foldl (subStep g t fixed restricted (runOrder t ordered root) (runDesc t ordered root))
    ([], oe.map fun e => (e.2, []))

/-- Substitute dictionary lookup. -/
def dictLookup (d : Dict) (k : Nat × Nat) : Option (List (Nat × Nat)) :=
  (d.find? fun kv => decide (kv.1 = k)).map (·.2)

/-- The attribute state of a `Substitute` object. -/
structure SubState where
  graph : Gr
  tree : Gr
  fixed_edges : List WEdge
  restricted_edges : List (Nat × Nat)
  ordered : Bool
  directed : List (Nat × Nat)
  postorder_nodes : List Nat
  descendants : List (Nat × List Nat)
  quasi_cuts : List WEdge
deriving Repr, DecidableEq

/-- `Substitute.__init__`: validate, then store the inputs (traversal
state is only instantiated later, inside `substitute()`). -/
def substituteInit (g t : Gr) (fixed : List WEdge) (restricted : List (Nat × Nat))
    (ordered : Bool) : Except String SubState :=
  match check_input_graph g with
  | .error m => .error m
  | .ok () =>
    match check_input_tree t g with
    | .error m => .error m
    | .ok () => .ok ⟨g, t, fixed, restricted, ordered, [], [], [], []⟩

/-- `Substitute.substitute()` as a state transformer: instantiates the
directed copy, postorder data and quasi-cut set on the object, runs the
search, and returns the updated object state with the dictionary. -/
def substituteS (s : SubState) (root : Nat) : SubState × Dict :=
  let r := runSubstitute s.graph s.tree s.fixed_edges s.restricted_edges s.ordered root
  ({ s with
      directed := runArcs s.tree s.ordered root
      postorder_nodes := runOrder s.tree s.ordered root
      descendants := runDesc s.tree s.ordered root
      quasi_cuts := r.1 }, r.2)

instance {α : Type} [DecidableEq α] : DecidableEq (Except String α) := fun x y =>
  match x, y with
  | .error a, .error b =>
    if h : a = b then isTrue (congrArg Except.error h)
    else isFalse fun hh => h (by injection hh)
  | .error _, .ok _ => isFalse fun hh => Except.noConfusion hh
  | .ok _, .error _ => isFalse fun hh => Except.noConfusion hh
  | .ok a, .ok b =>
    if h : a = b then isTrue (congrArg Except.ok h)
    else isFalse fun hh => h (by injection hh)

/-- One step along an arc "to an earlier node" inside a ranked list `L`:
`y` is an adjacency neighbour of `x` and both occur in `L` with `y`
strictly earlier.  This is the step relation of the pruned forest that
`postorder_tree` leaves behind. -/
def StepIn (adj : Nat → List Nat) (L : List Nat) (x y : Nat) : Prop :=
  x ∈ L ∧ y ∈ L ∧ y ∈ adj x ∧ idxIn L y < idxIn L x

/-- Reachability along `StepIn` arcs. -/
def ReachIn (adj : Nat → List Nat) (L : List Nat) : Nat → Nat → Prop :=
  Relation.ReflTransGen (StepIn adj L)

/-- Abstract reachability along a successor function. -/
def Reaches (step : Nat → List Nat) : Nat → Nat → Prop :=
  Relation.ReflTransGen fun a b => b ∈ step a

/-- The prefix of `l` through the first occurrence of `x` (inclusive). -/
def upto (l : List Nat) (x : Nat) : List Nat :=
  l.takeWhile (fun y => decide (y ≠ x)) ++ [x]

/-- Subtree-interval property of a ranked list: every member's
reachable-set along arcs-to-earlier is a contiguous index interval
ending at the member itself. -/
def SegSpec (adj : Nat → List Nat) (L : List Nat) : Prop :=
  ∀ x ∈ L, ∃ i, i ≤ idxIn L x ∧
    ∀ y, (ReachIn adj L x y ↔ y ∈ L ∧ i ≤ idxIn L y ∧ idxIn L y ≤ idxIn L x)

/-- The interval of the traversal root covers the whole list. -/
def RootSpec (adj : Nat → List Nat) (L : List Nat) (u : Nat) : Prop :=
  ∀ y, ReachIn adj L u y ↔ y ∈ L

/-- A validated, faithfully represented input: both structural validators
accept, the tree spans the graph's nodes, the chosen root is a node, node
lists have no duplicates, edge endpoints are declared nodes, and the tree
edge list has no duplicate undirected edges (networkx guarantees the
representation conditions for any `nx.Graph`). -/
def ValidInput (g t : Gr) (root : Nat) : Prop :=
  check_input_graph g = .ok () ∧ check_input_tree t g = .ok () ∧
  (∀ x ∈ t.nodes, x ∈ g.nodes) ∧ (∀ x ∈ g.nodes, x ∈ t.nodes) ∧ root ∈ g.nodes ∧
  g.nodes.Nodup ∧ t.nodes.Nodup ∧
  (∀ e ∈ g.edges, e.1.1 ∈ g.nodes ∧ e.1.2 ∈ g.nodes) ∧
  (∀ e ∈ t.edges, e.1.1 ∈ t.nodes ∧ e.1.2 ∈ t.nodes) ∧
  (t.edges.map fun e => normPair e.1).Nodup

instance (g t : Gr) (root : Nat) : Decidable (ValidInput g t root) := by
  unfold ValidInput; infer_instance

/-- The amended shape of claim C5: on the DFS path the substitute
dictionary has exactly node-count-minus-one keys, without duplicates;
every key is a tree edge oriented child-to-parent (the first component
has the strictly smaller postorder rank); every tree edge appears as a
key in one of its two orientations; and every key carries at most one
substitute. -/
def C5Concl (g t : Gr) (fixed : List WEdge) (restricted : List (Nat × Nat))
    (root : Nat) : Prop :=
  ((runSubstitute g t fixed restricted false root).2.map Prod.fst).length
      = t.nodes.length - 1 ∧
  ((runSubstitute g t fixed restricted false root).2.map Prod.fst).Nodup ∧
  (∀ k ∈ (runSubstitute g t fixed restricted false root).2.map Prod.fst,
    hasEdge t k.1 k.2 = true ∧
    rankOf (runOrder t false root) k.1 < rankOf (runOrder t false root) k.2) ∧
  (∀ e ∈ t.edges,
    (e.1.1, e.1.2) ∈ (runSubstitute g t fixed restricted false root).2.map Prod.fst ∨
    (e.1.2, e.1.1) ∈ (runSubstitute g t fixed restricted false root).2.map Prod.fst) ∧
  (∀ kv ∈ (runSubstitute g t fixed restricted false root).2, kv.2.length ≤ 1)

/-! ### Concrete inputs used by counterexamples and witnesses -/

/-- Four-node path graph 1-2-3-4 plus the extra edge (1,4), all weights 1. -/
def g4 : Gr := ⟨[1, 2, 3, 4], [((1, 2), some 1), ((2, 3), some 1), ((3, 4), some 1), ((1, 4), some 1)]⟩

/-- The path 1-2-3-4 as a spanning tree of `g4`. -/
def t4 : Gr := ⟨[1, 2, 3, 4], [((1, 2), some 1), ((2, 3), some 1), ((3, 4), some 1)]⟩

/-- Triangle graph on 1,2,3, all weights 1. -/
def g3 : Gr := ⟨[1, 2, 3], [((1, 2), some 1), ((2, 3), some 1), ((1, 3), some 1)]⟩

/-- The path 1-2-3 as a spanning tree of `g3`. -/
def t3 : Gr := ⟨[1, 2, 3], [((1, 2), some 1), ((2, 3), some 1)]⟩

/-- Five-node path graph plus the two extra edges (1,5) and (2,4), all weights 1. -/
def g5 : Gr := ⟨[1, 2, 3, 4, 5],
  [((1, 2), some 1), ((2, 3), some 1), ((3, 4), some 1), ((4, 5), some 1),
   ((1, 5), some 1), ((2, 4), some 1)]⟩

/-- The path 1-2-3-4-5 as a spanning tree of `g5`. -/
def t5 : Gr := ⟨[1, 2, 3, 4, 5],
  [((1, 2), some 1), ((2, 3), some 1), ((3, 4), some 1), ((4, 5), some 1)]⟩

/-- The path tree 1-2-3-4 with its node list in the non-postorder
insertion order `[2,1,3,4]` (legal for `networkx`). -/
def t4b : Gr := ⟨[2, 1, 3, 4], [((1, 2), some 1), ((2, 3), some 1), ((3, 4), some 1)]⟩

/-- Parent graph of `t4b`: the path plus the chord (1,3). -/
def g4b : Gr := ⟨[2, 1, 3, 4], [((1, 2), some 1), ((2, 3), some 1), ((3, 4), some 1), ((1, 3), some 1)]⟩

/-- Path graph 1-2-3. -/
def gP3 : Gr := ⟨[1, 2, 3], [((1, 2), some 1), ((2, 3), some 1)]⟩

/-- A tree on nodes 1,2 only: a subtree of `gP3` that does not span it. -/
def tNS : Gr := ⟨[1, 2], [((1, 2), some 1)]⟩

/-- Descendants table used by the `equal_weight_descendant` counterexample. -/
def dEx : List (Nat × List Nat) := [(1, [1]), (2, [1, 2]), (3, [1, 2, 3])]

instance {α : Type} [DecidableEq α] : DecidableEq (Except String α) := fun x y =>
  match x, y with
  | .error a, .error b =>
    if h : a = b then isTrue (congrArg Except.error h)
    else isFalse fun hh => h (by injection hh)
  | .error _, .ok _ => isFalse fun hh => Except.noConfusion hh
  | .ok _, .error _ => isFalse fun hh => Except.noConfusion hh
  | .ok a, .ok b =>
    if h : a = b then isTrue (congrArg Except.ok h)
    else isFalse fun hh => h (by injection hh)

/-! ## Infrastructure: list positions -/

theorem idxIn_eq_length_of_not_mem {l : List Nat} {x : Nat} (h : x ∉ l) :
    idxIn l x = l.length := by
  induction l with
  | nil => rfl
  | cons a l ih =>
    have hx : ¬ a = x := fun hh => h (hh ▸ List.mem_cons_self a l)
    simp only [idxIn, if_neg hx, List.length_cons]
    rw [ih fun hm => h (List.mem_cons_of_mem _ hm)]

theorem idxIn_lt_length {l : List Nat} {x : Nat} (h : x ∈ l) :
    idxIn l x < l.length := by
  induction l with
  | nil => simp at h
  | cons a l ih =>
    by_cases hx : a = x
    · simp [idxIn, hx]
    · rcases List.mem_cons.mp h with rfl | hm
      · exact absurd rfl hx
      · simp only [idxIn, if_neg hx, List.length_cons]
        exact Nat.succ_lt_succ (ih hm)

theorem mem_of_idxIn_lt_length {l : List Nat} {x : Nat} (h : idxIn l x < l.length) :
    x ∈ l := by
  by_contra hm
  rw [idxIn_eq_length_of_not_mem hm] at h
  exact lt_irrefl _ h

theorem idxIn_append_left {l1 l2 : List Nat} {x : Nat} (h : x ∈ l1) :
    idxIn (l1 ++ l2) x = idxIn l1 x := by
  induction l1 with
  | nil => simp at h
  | cons a l ih =>
    by_cases hx : a = x
    · simp [idxIn, hx]
    · rcases List.mem_cons.mp h with rfl | hm
      · exact absurd rfl hx
      · simp only [List.cons_append, idxIn, if_neg hx]
        rw [List.append_eq, ih hm]

theorem idxIn_append_right {l1 l2 : List Nat} {x : Nat} (h : x ∉ l1) :
    idxIn (l1 ++ l2) x = l1.length + idxIn l2 x := by
  induction l1 with
  | nil => simp [idxIn]
  | cons a l ih =>
    have hx : ¬ a = x := fun hh => h (hh ▸ List.mem_cons_self a l)
    simp only [List.cons_append, idxIn, if_neg hx, List.length_cons]
    rw [List.append_eq, ih fun hm => h (List.mem_cons_of_mem _ hm)]
    omega

theorem getElem?_idxIn {l : List Nat} {x : Nat} (h : x ∈ l) :
    l[idxIn l x]? = some x := by
  induction l with
  | nil => simp at h
  | cons a l ih =>
    by_cases hx : a = x
    · simp [idxIn, hx]
    · rcases List.mem_cons.mp h with rfl | hm
      · exact absurd rfl hx
      · simp only [idxIn, if_neg hx]
        simpa using ih hm

theorem idxIn_inj {l : List Nat} {x y : Nat} (hx : x ∈ l) (hy : y ∈ l)
    (h : idxIn l x = idxIn l y) : x = y := by
  have h1 := getElem?_idxIn hx
  have h2 := getElem?_idxIn hy
  rw [h] at h1
  exact Option.some.inj (h1.symm.trans h2)

/-! ## Infrastructure: counting unvisited nodes (DFS fuel bookkeeping) -/

theorem countP_unvis_mono (U vis vis' : List Nat)
    (h : ∀ x, x ∈ vis → x ∈ vis') :
    U.countP (fun x => decide (x ∉ vis')) ≤ U.countP (fun x => decide (x ∉ vis)) := by
  induction U with
  | nil => simp
  | cons a U ih =>
    rw [List.countP_cons, List.countP_cons]
    by_cases ha : a ∈ vis'
    · rw [show (decide (a ∉ vis') : Bool) = false by simp [ha], if_neg Bool.false_ne_true]
      by_cases hb : a ∈ vis
      · rw [show (decide (a ∉ vis) : Bool) = false by simp [hb], if_neg Bool.false_ne_true]
        omega
      · rw [show (decide (a ∉ vis) : Bool) = true by simp [hb], if_pos rfl]
        omega
    · have hbv : a ∉ vis := fun hm => ha (h a hm)
      rw [show (decide (a ∉ vis') : Bool) = true by simp [ha], if_pos rfl,
        show (decide (a ∉ vis) : Bool) = true by simp [hbv], if_pos rfl]
      omega

theorem countP_unvis_dec {U vis : List Nat} {u : Nat} (hU : u ∈ U) (hv : u ∉ vis) :
    U.countP (fun x => decide (x ∉ vis ++ [u])) < U.countP (fun x => decide (x ∉ vis)) := by
  induction U with
  | nil => simp at hU
  | cons a U ih =>
    rw [List.countP_cons, List.countP_cons]
    by_cases hau : a = u
    · subst hau
      rw [show (decide (a ∉ vis ++ [a]) : Bool) = false by simp,
        if_neg Bool.false_ne_true,
        show (decide (a ∉ vis) : Bool) = true by simp [hv], if_pos rfl]
      have hle := countP_unvis_mono U vis (vis ++ [a])
        fun x hx => List.mem_append_left _ hx
      omega
    · have heq : (decide (a ∉ vis ++ [u]) : Bool) = decide (a ∉ vis) := by
        simp only [List.mem_append, List.mem_singleton, decide_eq_decide]
        constructor
        · intro hh hm
          exact hh (Or.inl hm)
        · rintro hh (hm | rfl)
          · exact hh hm
          · exact hau rfl
      have hm : u ∈ U := by
        rcases List.mem_cons.mp hU with h' | h'
        · exact absurd h'.symm hau
        · exact h'
      have := ih hm
      rw [heq]
      omega

/-! ## Infrastructure: DFS unfolding equations -/

theorem dfsVisit_zero (adj : Nat → List Nat) (vis : List Nat) (u : Nat) :
    dfsVisit adj 0 vis u = (vis, []) := rfl

theorem dfsVisit_succ (adj : Nat → List Nat) (f : Nat) (vis : List Nat) (u : Nat) :
    dfsVisit adj (f + 1) vis u =
      ((dfsFold (dfsVisit adj f) (vis ++ [u], []) (adj u)).1,
       (dfsFold (dfsVisit adj f) (vis ++ [u], []) (adj u)).2 ++ [u]) := rfl

theorem dfsFold_nil (visitF : List Nat → Nat → List Nat × List Nat)
    (acc : List Nat × List Nat) : dfsFold visitF acc [] = acc := rfl

theorem dfsFold_cons (visitF : List Nat → Nat → List Nat × List Nat)
    (acc : List Nat × List Nat) (w : Nat) (ws : List Nat) :
    dfsFold visitF acc (w :: ws) =
      if w ∈ acc.1 then dfsFold visitF acc ws
      else dfsFold visitF ((visitF acc.1 w).1, acc.2 ++ (visitF acc.1 w).2) ws := rfl

/-! ## Infrastructure: DFS basic invariants -/

/-- Basic invariants of one worklist pass, generic in the visit function. -/
theorem dfsFold_basic (visitF : List Nat → Nat → List Nat × List Nat)
    (hV : ∀ vis u, vis.Nodup → u ∉ vis →
      (∃ d, (visitF vis u).1 = vis ++ d) ∧
      (∀ x, x ∈ (visitF vis u).1 ↔ x ∈ vis ∨ x ∈ (visitF vis u).2) ∧
      (visitF vis u).2.Nodup ∧
      (∀ x ∈ (visitF vis u).2, x ∉ vis) ∧
      (visitF vis u).1.Nodup) :
    ∀ (l vis0 out0 : List Nat), vis0.Nodup → (∀ x ∈ out0, x ∈ vis0) → out0.Nodup →
      (∃ d, (dfsFold visitF (vis0, out0) l).1 = vis0 ++ d) ∧
      (∀ x, x ∈ (dfsFold visitF (vis0, out0) l).1 ↔
        x ∈ vis0 ∨ x ∈ (dfsFold visitF (vis0, out0) l).2) ∧
      (dfsFold visitF (vis0, out0) l).2.Nodup ∧
      (∀ x ∈ (dfsFold visitF (vis0, out0) l).2, x ∈ out0 ∨ x ∉ vis0) ∧
      (dfsFold visitF (vis0, out0) l).1.Nodup ∧
      (∃ q, (dfsFold visitF (vis0, out0) l).2 = out0 ++ q) := by
  intro l
  induction l with
  | nil =>
    intro vis0 out0 h1 h2 h3
    rw [dfsFold_nil]
    refine ⟨⟨[], by simp⟩, ?_, h3, ?_, h1, ⟨[], by simp⟩⟩
    · intro x
      constructor
      · exact Or.inl
      · rintro (h | h)
        · exact h
        · exact h2 x h
    · intro x hx
      exact Or.inl hx
  | cons w ws ih =>
    intro vis0 out0 h1 h2 h3
    rw [dfsFold_cons]
    by_cases hw : w ∈ vis0
    · rw [if_pos hw]
      exact ih vis0 out0 h1 h2 h3
    · rw [if_neg hw]
      obtain ⟨⟨d1, hd1⟩, hmem1, hnd1, hfresh1, hvnd1⟩ := hV vis0 w h1 hw
      have hsub : ∀ x, x ∈ vis0 → x ∈ (visitF vis0 w).1 := by
        intro x hx
        rw [hd1]
        exact List.mem_append_left _ hx
      have hsub2 : ∀ x ∈ (visitF vis0 w).2, x ∈ (visitF vis0 w).1 := by
        intro x hx
        exact (hmem1 x).mpr (Or.inr hx)
      have hdisj : List.Disjoint out0 (visitF vis0 w).2 := by
        intro a ha1 ha2
        exact hfresh1 a ha2 (h2 a ha1)
      obtain ⟨⟨d2, hd2⟩, hmem2, hnd2, hfresh2, hvnd2, ⟨q2, hq2⟩⟩ :=
        ih (visitF vis0 w).1 (out0 ++ (visitF vis0 w).2) hvnd1
          (by
            intro x hx
            rcases List.mem_append.mp hx with hx | hx
            · exact hsub x (h2 x hx)
            · exact hsub2 x hx)
          (h3.append hnd1 hdisj)
      refine ⟨⟨d1 ++ d2, by rw [hd2, hd1, List.append_assoc]⟩, ?_, hnd2, ?_, hvnd2, ?_⟩
      · intro x
        rw [hmem2 x]
        constructor
        · rintro (hx | hx)
          · rcases (hmem1 x).mp hx with hx | hx
            · exact Or.inl hx
            · refine Or.inr ?_
              rw [hq2]
              exact List.mem_append_left _ (List.mem_append_right _ hx)
          · exact Or.inr hx
        · rintro (hx | hx)
          · exact Or.inl (hsub x hx)
          · exact Or.inr hx
      · intro x hx
        rcases hfresh2 x hx with hx2 | hx2
        · rcases List.mem_append.mp hx2 with hx3 | hx3
          · exact Or.inl hx3
          · exact Or.inr (hfresh1 x hx3)
        · refine Or.inr fun hm => hx2 (hsub x hm)
      · refine ⟨(visitF vis0 w).2 ++ q2, ?_⟩
        rw [hq2, List.append_assoc]

/-- Basic invariants of one DFS visit: the visited list only grows, the
newly visited nodes are exactly the postorder output, and the output has
no duplicates and is disjoint from the prior visited list. -/
theorem dfsVisit_basic (adj : Nat → List Nat) :
    ∀ (f : Nat) (vis : List Nat) (u : Nat), vis.Nodup → u ∉ vis →
      (∃ d, (dfsVisit adj f vis u).1 = vis ++ d) ∧
      (∀ x, x ∈ (dfsVisit adj f vis u).1 ↔ x ∈ vis ∨ x ∈ (dfsVisit adj f vis u).2) ∧
      (dfsVisit adj f vis u).2.Nodup ∧
      (∀ x ∈ (dfsVisit adj f vis u).2, x ∉ vis) ∧
      (dfsVisit adj f vis u).1.Nodup := by
  intro f
  induction f with
  | zero =>
    intro vis u hnd _
    rw [dfsVisit_zero]
    exact ⟨⟨[], by simp⟩, by simp, by simp, by simp, hnd⟩
  | succ f ih =>
    intro vis u hnd hu
    rw [dfsVisit_succ]
    have hvnd : (vis ++ [u]).Nodup := by
      rw [List.nodup_append]
      exact ⟨hnd, List.nodup_singleton u, by simpa using hu⟩
    obtain ⟨⟨d, hd⟩, hmem, hnd2, hfresh, hnd1, ⟨q, hq⟩⟩ :=
      dfsFold_basic (dfsVisit adj f) ih (adj u) (vis ++ [u]) [] hvnd (by simp) List.nodup_nil
    refine ⟨⟨u :: d, by rw [hd]; simp⟩, ?_, ?_, ?_, hnd1⟩
    · intro x
      rw [hmem x]
      simp only [List.mem_append, List.mem_singleton]
      constructor
      · rintro ((hx | rfl) | hx)
        · exact Or.inl hx
        · exact Or.inr (Or.inr rfl)
        · exact Or.inr (Or.inl hx)
      · rintro (hx | (hx | rfl))
        · exact Or.inl (Or.inl hx)
        · exact Or.inr hx
        · exact Or.inl (Or.inr rfl)
    · rw [List.nodup_append]
      refine ⟨hnd2, List.nodup_singleton u, ?_⟩
      intro a ha
      rcases hfresh a ha with ha2 | ha2
      · simp at ha2
      · simp only [List.mem_singleton]
        intro rfl2
        subst rfl2
        exact ha2 (List.mem_append_right _ (List.mem_singleton_self a))
    · intro x hx
      rcases List.mem_append.mp hx with hx | hx
      · rcases hfresh x hx with hx2 | hx2
        · simp at hx2
        · exact fun hm => hx2 (List.mem_append_left _ hm)
      · rw [List.mem_singleton] at hx
        subst hx
        exact hu

/-! ## Infrastructure: DFS closedness and coverage -/

theorem dfsFold_ext (visitF : List Nat → Nat → List Nat × List Nat)
    (hV : ∀ vis u, ∃ d, (visitF vis u).1 = vis ++ d) :
    ∀ (l : List Nat) (acc : List Nat × List Nat),
      ∃ d, (dfsFold visitF acc l).1 = acc.1 ++ d := by
  intro l
  induction l with
  | nil =>
    intro acc
    exact ⟨[], by simp [dfsFold_nil]⟩
  | cons w ws ih =>
    intro acc
    rw [dfsFold_cons]
    by_cases hw : w ∈ acc.1
    · rw [if_pos hw]
      exact ih acc
    · rw [if_neg hw]
      obtain ⟨d1, hd1⟩ := hV acc.1 w
      obtain ⟨d2, hd2⟩ := ih ((visitF acc.1 w).1, acc.2 ++ (visitF acc.1 w).2)
      refine ⟨d1 ++ d2, ?_⟩
      rw [hd2]
      dsimp only
      rw [hd1, List.append_assoc]

theorem dfsVisit_ext (adj : Nat → List Nat) :
    ∀ (f : Nat) (vis : List Nat) (u : Nat), ∃ d, (dfsVisit adj f vis u).1 = vis ++ d := by
  intro f
  induction f with
  | zero =>
    intro vis u
    exact ⟨[], by simp [dfsVisit_zero]⟩
  | succ f ih =>
    intro vis u
    rw [dfsVisit_succ]
    obtain ⟨d, hd⟩ := dfsFold_ext (dfsVisit adj f) (ih) (adj u) (vis ++ [u], [])
    refine ⟨u :: d, ?_⟩
    dsimp only
    rw [hd]
    simp

theorem dfsVisit_mem_self (adj : Nat → List Nat) {f : Nat} (vis : List Nat) (u : Nat)
    (hf : 1 ≤ f) : u ∈ (dfsVisit adj f vis u).1 := by
  cases f with
  | zero => omega
  | succ f =>
    rw [dfsVisit_succ]
    obtain ⟨d, hd⟩ := dfsFold_ext (dfsVisit adj f) (dfsVisit_ext adj f) (adj u) (vis ++ [u], [])
    dsimp only
    rw [hd]
    simp

theorem dfsVisit_ends (adj : Nat → List Nat) {f : Nat} (vis : List Nat) (u : Nat)
    (hf : 1 ≤ f) : ∃ p, (dfsVisit adj f vis u).2 = p ++ [u] := by
  cases f with
  | zero => omega
  | succ f => exact ⟨_, rfl⟩

theorem one_le_countP_unvis {U vis : List Nat} {u : Nat} (hU : u ∈ U) (hv : u ∉ vis) :
    1 ≤ U.countP (fun x => decide (x ∉ vis)) := by
  induction U with
  | nil => simp at hU
  | cons a U ih =>
    rw [List.countP_cons]
    rcases List.mem_cons.mp hU with hau | hm
    · rw [show (decide (a ∉ vis) : Bool) = true by simp [hau ▸ hv], if_pos rfl]
      omega
    · have := ih hm
      omega

/-- Closedness of one worklist pass: every listed neighbour ends up
visited, and every newly emitted node has all its neighbours visited and
lies in the universe. -/
theorem dfsFold_closed (adj : Nat → List Nat) (U : List Nat)
    (_HadjU : ∀ x y, y ∈ adj x → y ∈ U) (f : Nat)
    (hVclosed : ∀ vis u, vis.Nodup → u ∉ vis → u ∈ U →
      U.countP (fun x => decide (x ∉ vis)) ≤ f →
      (∀ x ∈ (dfsVisit adj f vis u).2, ∀ y ∈ adj x, y ∈ (dfsVisit adj f vis u).1) ∧
      (∀ x ∈ (dfsVisit adj f vis u).2, x ∈ U)) :
    ∀ (l vis0 out0 : List Nat), vis0.Nodup → (∀ x ∈ out0, x ∈ vis0) → out0.Nodup →
      (∀ w ∈ l, w ∈ U) →
      U.countP (fun x => decide (x ∉ vis0)) ≤ f →
      (∀ w ∈ l, w ∈ (dfsFold (dfsVisit adj f) (vis0, out0) l).1) ∧
      (∀ x ∈ (dfsFold (dfsVisit adj f) (vis0, out0) l).2, x ∉ out0 →
        (∀ y ∈ adj x, y ∈ (dfsFold (dfsVisit adj f) (vis0, out0) l).1) ∧ x ∈ U) := by
  intro l
  induction l with
  | nil =>
    intro vis0 out0 _ _ _ _ _
    rw [dfsFold_nil]
    exact ⟨by simp, fun x hx hnx => absurd hx hnx⟩
  | cons w ws ih =>
    intro vis0 out0 h1 h2 h3 hlU hcount
    rw [dfsFold_cons]
    by_cases hw : w ∈ vis0
    · rw [if_pos hw]
      obtain ⟨cov, closed⟩ := ih vis0 out0 h1 h2 h3 (fun x hx => hlU x (List.mem_cons_of_mem _ hx)) hcount
      refine ⟨?_, closed⟩
      intro w' hw'
      rcases List.mem_cons.mp hw' with rfl | hm
      · obtain ⟨d, hd⟩ := dfsFold_ext (dfsVisit adj f) (dfsVisit_ext adj f) ws (vis0, out0)
        rw [hd]
        exact List.mem_append_left _ hw
      · exact cov w' hm
    · rw [if_neg hw]
      have hwU : w ∈ U := hlU w (List.mem_cons_self _ _)
      have hf1 : 1 ≤ f := le_trans (one_le_countP_unvis hwU hw) hcount
      obtain ⟨closed1, inU1⟩ := hVclosed vis0 w h1 hw hwU hcount
      obtain ⟨⟨d1, hd1⟩, hmem1, hnd1, hfresh1, hvnd1⟩ := dfsVisit_basic adj f vis0 w h1 hw
      have hsub : ∀ x, x ∈ vis0 → x ∈ (dfsVisit adj f vis0 w).1 := by
        intro x hx
        rw [hd1]
        exact List.mem_append_left _ hx
      have hwin : w ∈ (dfsVisit adj f vis0 w).1 := dfsVisit_mem_self adj vis0 w hf1
      have hcount2 : U.countP (fun x => decide (x ∉ (dfsVisit adj f vis0 w).1)) ≤ f := by
        have hmono := countP_unvis_mono U (vis0 ++ [w])
          ((dfsVisit adj f vis0 w).1)
          (by
            intro x hx
            rcases List.mem_append.mp hx with hx | hx
            · exact hsub x hx
            · rw [List.mem_singleton] at hx
              subst hx
              exact hwin)
        have hdec := countP_unvis_dec hwU hw
        omega
      obtain ⟨cov2, closed2⟩ := ih (dfsVisit adj f vis0 w).1 (out0 ++ (dfsVisit adj f vis0 w).2)
        hvnd1
        (by
          intro x hx
          rcases List.mem_append.mp hx with hx | hx
          · exact hsub x (h2 x hx)
          · exact (hmem1 x).mpr (Or.inr hx))
        (h3.append hnd1 (fun a ha1 ha2 => hfresh1 a ha2 (h2 a ha1)))
        (fun x hx => hlU x (List.mem_cons_of_mem _ hx)) hcount2
      obtain ⟨dext, hdext⟩ := dfsFold_ext (dfsVisit adj f) (dfsVisit_ext adj f) ws
        ((dfsVisit adj f vis0 w).1, out0 ++ (dfsVisit adj f vis0 w).2)
      obtain ⟨qext, hqext⟩ :=
        (dfsFold_basic (dfsVisit adj f) (dfsVisit_basic adj f) ws (dfsVisit adj f vis0 w).1
          (out0 ++ (dfsVisit adj f vis0 w).2) hvnd1
          (by
            intro x hx
            rcases List.mem_append.mp hx with hx | hx
            · exact hsub x (h2 x hx)
            · exact (hmem1 x).mpr (Or.inr hx))
          (h3.append hnd1 (fun a ha1 ha2 => hfresh1 a ha2 (h2 a ha1)))).2.2.2.2.2
      refine ⟨?_, ?_⟩
      · intro w' hw'
        rcases List.mem_cons.mp hw' with rfl | hm
        · rw [hdext]
          dsimp only at *
          exact List.mem_append_left _ hwin
        · exact cov2 w' hm
      · intro x hx hnx
        by_cases hx1 : x ∈ (dfsVisit adj f vis0 w).2
        · refine ⟨?_, inU1 x hx1⟩
          intro y hy
          rw [hdext]
          dsimp only at *
          exact List.mem_append_left _ (closed1 x hx1 y hy)
        · refine closed2 x hx ?_
          intro hmm
          rcases List.mem_append.mp hmm with hmm | hmm
          · exact hnx hmm
          · exact hx1 hmm

/-- Closedness of a DFS visit: every emitted node has all its neighbours
visited at the end, and lies in the universe. -/
theorem dfsVisit_closed (adj : Nat → List Nat) (U : List Nat)
    (HadjU : ∀ x y, y ∈ adj x → y ∈ U) :
    ∀ (f : Nat) (vis : List Nat) (u : Nat), vis.Nodup → u ∉ vis → u ∈ U →
      U.countP (fun x => decide (x ∉ vis)) ≤ f →
      (∀ x ∈ (dfsVisit adj f vis u).2, ∀ y ∈ adj x, y ∈ (dfsVisit adj f vis u).1) ∧
      (∀ x ∈ (dfsVisit adj f vis u).2, x ∈ U) := by
  intro f
  induction f with
  | zero =>
    intro vis u h1 h2 h3 hcount
    have := one_le_countP_unvis h3 h2
    omega
  | succ f ih =>
    intro vis u h1 h2 h3 hcount
    rw [dfsVisit_succ]
    dsimp only
    have hvnd : (vis ++ [u]).Nodup := by
      rw [List.nodup_append]
      exact ⟨h1, List.nodup_singleton u, by simpa using h2⟩
    have hcount2 : U.countP (fun x => decide (x ∉ vis ++ [u])) ≤ f := by
      have := countP_unvis_dec h3 h2
      omega
    obtain ⟨cov, closed⟩ := dfsFold_closed adj U HadjU f ih (adj u) (vis ++ [u]) [] hvnd
      (by simp) List.nodup_nil (fun y hy => HadjU u y hy) hcount2
    constructor
    · intro x hx y hy
      rcases List.mem_append.mp hx with hx | hx
      · exact (closed x hx (by simp)).1 y hy
      · rw [List.mem_singleton] at hx
        subst hx
        exact cov y hy
    · intro x hx
      rcases List.mem_append.mp hx with hx | hx
      · exact (closed x hx (by simp)).2
      · rw [List.mem_singleton] at hx
        subst hx
        exact h3

/-! ## Infrastructure: reachability, adjacency transfer and full coverage -/

theorem closure_sound (step : Nat → List Nat) :
    ∀ (f : Nat) (l : List Nat) (x : Nat), x ∈ closure step f l →
      ∃ s ∈ l, Reaches step s x := by
  intro f
  induction f with
  | zero =>
    intro l x hx
    exact ⟨x, hx, Relation.ReflTransGen.refl⟩
  | succ f ih =>
    intro l x hx
    obtain ⟨s, hs, hr⟩ := ih (expandStep step l) x hx
    have hs2 : s ∈ l ++ l.flatMap step := List.mem_dedup.mp hs
    rcases List.mem_append.mp hs2 with hs3 | hs3
    · exact ⟨s, hs3, hr⟩
    · obtain ⟨s0, hs0, hstep⟩ := List.mem_flatMap.mp hs3
      exact ⟨s0, hs0, Relation.ReflTransGen.head hstep hr⟩

theorem reaches_symm {step : Nat → List Nat} (hsym : ∀ x y, y ∈ step x → x ∈ step y)
    {a b : Nat} (h : Reaches step a b) : Reaches step b a := by
  induction h with
  | refl => exact Relation.ReflTransGen.refl
  | tail _ hstep ih => exact Relation.ReflTransGen.head (hsym _ _ hstep) ih

theorem reaches_congr {s1 s2 : Nat → List Nat} (h : ∀ x y, y ∈ s1 x ↔ y ∈ s2 x)
    {a b : Nat} : Reaches s1 a b → Reaches s2 a b :=
  Relation.ReflTransGen.mono fun x y hxy => (h x y).mp hxy

theorem mem_arcAdj {arcs : List (Nat × Nat)} {n y : Nat} :
    y ∈ arcAdj arcs n ↔ (n, y) ∈ arcs := by
  unfold arcAdj
  rw [List.mem_filterMap]
  constructor
  · rintro ⟨⟨a1, a2⟩, ha, hfa⟩
    dsimp only at hfa
    by_cases h : a1 = n
    · rw [if_pos h] at hfa
      have h2 := Option.some.inj hfa
      rw [← h, ← h2]
      exact ha
    · rw [if_neg h] at hfa
      exact Option.noConfusion hfa
  · intro h
    exact ⟨(n, y), h, by simp⟩

theorem mem_to_directed {t : Gr} {a b : Nat} :
    (a, b) ∈ to_directed t ↔ ∃ e ∈ t.edges, e.1 = (a, b) ∨ e.1 = (b, a) := by
  unfold to_directed
  rw [List.mem_flatMap]
  constructor
  · rintro ⟨e, he, hm⟩
    simp only [List.mem_cons, List.mem_singleton, List.not_mem_nil, or_false,
      Prod.mk.injEq] at hm
    rcases hm with hm | hm
    · refine ⟨e, he, Or.inl ?_⟩
      rw [hm.1, hm.2]
    · refine ⟨e, he, Or.inr ?_⟩
      rw [hm.1, hm.2]
  · rintro ⟨e, he, h | h⟩ <;> exact ⟨e, he, by rw [h]; simp⟩

theorem mem_adjOf {g : Gr} (hns : ∀ e ∈ g.edges, e.1.1 ≠ e.1.2) {n y : Nat} :
    y ∈ adjOf g n ↔ ∃ e ∈ g.edges, e.1 = (n, y) ∨ e.1 = (y, n) := by
  unfold adjOf
  rw [List.mem_filterMap]
  constructor
  · rintro ⟨e, he, hfe⟩
    by_cases h1 : e.1.1 = n
    · rw [if_pos h1] at hfe
      have h2 := Option.some.inj hfe
      refine ⟨e, he, Or.inl ?_⟩
      rw [← h1, ← h2]
    · rw [if_neg h1] at hfe
      by_cases h2 : e.1.2 = n
      · rw [if_pos h2] at hfe
        have h3 := Option.some.inj hfe
        refine ⟨e, he, Or.inr ?_⟩
        rw [← h3, ← h2]
      · rw [if_neg h2] at hfe
        exact Option.noConfusion hfe
  · rintro ⟨e, he, h | h⟩
    · refine ⟨e, he, ?_⟩
      have h1 : e.1.1 = n := by rw [h]
      have h2 : e.1.2 = y := by rw [h]
      rw [if_pos h1, h2]
    · refine ⟨e, he, ?_⟩
      have h1 : e.1.1 = y := by rw [h]
      have h2 : e.1.2 = n := by rw [h]
      have hne : ¬ e.1.1 = n := by
        rw [h1]
        intro hyn
        refine hns e he ?_
        rw [h1, h2, hyn]
      rw [if_neg hne, if_pos h2, h1]

theorem arcAdj_to_directed_mem {t : Gr} {n y : Nat} :
    y ∈ arcAdj (to_directed t) n ↔ ∃ e ∈ t.edges, e.1 = (n, y) ∨ e.1 = (y, n) := by
  rw [mem_arcAdj, mem_to_directed]

theorem arcAdj_to_directed_sym {t : Gr} {x y : Nat} :
    y ∈ arcAdj (to_directed t) x → x ∈ arcAdj (to_directed t) y := by
  rw [arcAdj_to_directed_mem, arcAdj_to_directed_mem]
  rintro ⟨e, he, h | h⟩
  · exact ⟨e, he, Or.inr h⟩
  · exact ⟨e, he, Or.inl h⟩

theorem check_input_graph_ok {g : Gr} (h : check_input_graph g = .ok ()) :
    is_connected g = true ∧ has_self_cycles g = false ∧ is_weighted g = true := by
  unfold check_input_graph at h
  by_cases hc : is_connected g = true
  · rw [if_neg (fun hh => hh hc)] at h
    by_cases hs : has_self_cycles g = true
    · rw [if_pos hs] at h
      exact Except.noConfusion h
    · rw [if_neg hs] at h
      by_cases hw : is_weighted g = true
      · exact ⟨hc, by simpa using hs, hw⟩
      · rw [if_pos (fun hh => hw hh)] at h
        exact Except.noConfusion h
  · rw [if_pos hc] at h
    exact Except.noConfusion h

theorem check_input_tree_ok {t g : Gr} (h : check_input_tree t g = .ok ()) :
    check_input_graph t = .ok () ∧ is_tree_of_graph t g = true := by
  unfold check_input_tree at h
  cases hg : check_input_graph t with
  | error m =>
    rw [hg] at h
    exact Except.noConfusion h
  | ok u =>
    cases u
    rw [hg] at h
    cases ht : is_tree_of_graph t g
    · rw [ht] at h
      simp at h
    · exact ⟨rfl, rfl⟩

theorem is_tree_parts {g : Gr} (h : is_tree g = true) :
    g.nodes ≠ [] ∧ numEdges g = g.nodes.length - 1 ∧ is_connected g = true := by
  unfold is_tree at h
  rw [Bool.and_eq_true, Bool.and_eq_true] at h
  refine ⟨by simpa using h.1.1, by simpa using h.1.2, h.2⟩

theorem no_self_loops {g : Gr} (h : has_self_cycles g = false)
    (hend : ∀ e ∈ g.edges, e.1.1 ∈ g.nodes ∧ e.1.2 ∈ g.nodes) :
    ∀ e ∈ g.edges, e.1.1 ≠ e.1.2 := by
  intro e he heq
  have h' : has_self_cycles g = true := by
    unfold has_self_cycles
    rw [List.any_eq_true]
    refine ⟨e.1.1, (hend e he).1, ?_⟩
    rw [List.any_eq_true]
    refine ⟨e, he, ?_⟩
    rw [decide_eq_true_eq]
    have h2 : e.1 = (e.1.1, e.1.2) := Prod.mk.eta.symm
    rw [← heq] at h2
    exact h2
  rw [h] at h'
  exact Bool.false_ne_true h'

/-- Full coverage of DFS from a root that reaches everything: the
postorder list is exactly the universe, without duplicates. -/
theorem dfs_covers (adj : Nat → List Nat) (U : List Nat)
    (HadjU : ∀ x y, y ∈ adj x → y ∈ U)
    (root : Nat) (hroot : root ∈ U)
    (hreach : ∀ x ∈ U, Reaches adj root x) :
    (∀ x, x ∈ (dfsVisit adj U.length [] root).2 ↔ x ∈ U) ∧
    (dfsVisit adj U.length [] root).2.Nodup := by
  have hcount : U.countP (fun x => decide (x ∉ ([] : List Nat))) ≤ U.length := by
    have : U.countP (fun x => decide (x ∉ ([] : List Nat))) = U.length :=
      List.countP_eq_length.mpr fun a _ => by simp
    omega
  obtain ⟨_, hmem, hnd2, _, _⟩ :=
    dfsVisit_basic adj U.length [] root List.nodup_nil (by simp)
  obtain ⟨hclosed, hinU⟩ :=
    dfsVisit_closed adj U HadjU U.length [] root List.nodup_nil (by simp) hroot hcount
  have hVout : ∀ x, x ∈ (dfsVisit adj U.length [] root).1 ↔
      x ∈ (dfsVisit adj U.length [] root).2 := by
    intro x
    rw [hmem x]
    simp
  have hf1 : 1 ≤ U.length := List.length_pos.mpr (List.ne_nil_of_mem hroot)
  have hcov : ∀ y, Reaches adj root y → y ∈ (dfsVisit adj U.length [] root).1 := by
    intro y hy
    induction hy with
    | refl => exact dfsVisit_mem_self adj [] root hf1
    | tail _ hstep ih =>
      have hb := (hVout _).mp ih
      exact hclosed _ hb _ hstep
  constructor
  · intro x
    constructor
    · intro hx
      exact hinU x hx
    · intro hx
      exact (hVout x).mp (hcov x (hreach x hx))
  · exact hnd2

/-- Coverage for the tree traversal of `postorder_tree` (the DFS path):
on a connected, loop-free tree, the computed node order is a permutation
of the tree's nodes. -/
theorem runOrder_covers {t : Gr} {root : Nat}
    (hroot : root ∈ t.nodes)
    (hend : ∀ e ∈ t.edges, e.1.1 ∈ t.nodes ∧ e.1.2 ∈ t.nodes)
    (hns : ∀ e ∈ t.edges, e.1.1 ≠ e.1.2)
    (hconn : is_connected t = true) :
    (∀ x, x ∈ runOrder t false root ↔ x ∈ t.nodes) ∧ (runOrder t false root).Nodup := by
  have HadjU : ∀ x y, y ∈ arcAdj (to_directed t) x → y ∈ t.nodes := by
    intro x y hy
    obtain ⟨e, he, h | h⟩ := arcAdj_to_directed_mem.mp hy
    · have := (hend e he).2
      rw [h] at this
      exact this
    · have := (hend e he).1
      rw [h] at this
      exact this
  have hreach : ∀ x ∈ t.nodes, Reaches (arcAdj (to_directed t)) root x := by
    unfold is_connected at hconn
    cases hn : t.nodes with
    | nil =>
      rw [hn] at hroot
      simp at hroot
    | cons r0 rest =>
      rw [hn] at hconn
      rw [List.all_eq_true] at hconn
      have hstep_iff : ∀ x y, y ∈ adjOf t x ↔ y ∈ arcAdj (to_directed t) x := by
        intro x y
        rw [mem_adjOf hns, arcAdj_to_directed_mem]
      have hR : ∀ x ∈ t.nodes, Reaches (arcAdj (to_directed t)) r0 x := by
        intro x hx
        rw [hn] at hx
        have := hconn x hx
        rw [decide_eq_true_eq] at this
        obtain ⟨s, hs, hr⟩ := closure_sound (adjOf t) (r0 :: rest).length [r0] x this
        rw [List.mem_singleton] at hs
        subst hs
        exact reaches_congr hstep_iff hr
      have hRroot : Reaches (arcAdj (to_directed t)) r0 root := hR root hroot
      have hsym : ∀ x y, y ∈ arcAdj (to_directed t) x → x ∈ arcAdj (to_directed t) y :=
        fun x y => arcAdj_to_directed_sym
      intro x hx
      exact Relation.ReflTransGen.trans (reaches_symm hsym hRroot) (hR x (hn.symm ▸ hx))
  have h := dfs_covers (arcAdj (to_directed t)) t.nodes HadjU root hroot hreach
  unfold runOrder
  rw [if_neg (by simp)]
  exact h

/-! ## Infrastructure: the arc-pruning loop of `postorder_tree` -/

theorem prune_fold_eq :
    ∀ (order : List Nat) (arcs : List (Nat × Nat)) (seen : List Nat),
      (seen ++ order).Nodup →
      (order.foldl
        (fun (st : List (Nat × Nat) × List Nat) node =>
          (st.1.filter fun a => decide (¬ (a.1 = node ∧ a.2 ∉ st.2 ++ [node])),
           st.2 ++ [node]))
        (arcs, seen)).1
      = arcs.filter fun a => decide (a.1 ∈ order → a.2 ∈ seen ++ upto order a.1) := by
  intro order
  induction order with
  | nil =>
    intro arcs seen _
    rw [List.foldl_nil]
    refine (List.filter_eq_self.mpr ?_).symm
    intro a _
    simp
  | cons n rest ih =>
    intro arcs seen hnd
    rw [List.foldl_cons]
    have hnd2 : ((seen ++ [n]) ++ rest).Nodup := by
      rw [List.append_assoc]
      exact hnd
    rw [ih _ (seen ++ [n]) hnd2]
    rw [List.filter_filter]
    refine List.filter_congr ?_
    intro a _
    dsimp only
    have hnmem : n ∉ rest := by
      rw [List.nodup_append] at hnd
      have := hnd.2.1
      rw [List.nodup_cons] at this
      exact this.1
    by_cases han : a.1 = n
    · have har : a.1 ∉ rest := han ▸ hnmem
      have h1 : (decide (a.1 ∈ rest → a.2 ∈ seen ++ [n] ++ upto rest a.1) : Bool) = true := by
        simp [har]
      have h2 : upto (n :: rest) a.1 = [a.1] := by
        unfold upto
        rw [List.takeWhile_cons]
        rw [show (decide (n ≠ a.1) : Bool) = false by simp [han]]
        simp
      rw [h1, Bool.true_and, h2]
      simp only [decide_eq_decide]
      constructor
      · intro hh _
        have h3 := not_and.mp hh han
        rw [not_not] at h3
        rw [han]
        exact h3
      · intro hh
        rw [not_and]
        intro _
        rw [not_not]
        have h3 := hh (by rw [han]; exact List.mem_cons_self n rest)
        rw [han] at h3
        exact h3
    · have h2 : upto (n :: rest) a.1 = n :: upto rest a.1 := by
        unfold upto
        rw [List.takeWhile_cons]
        rw [show (decide (n ≠ a.1) : Bool) = true by
          rw [decide_eq_true_eq]
          exact fun hh => han hh.symm]
        rfl
      have h1 : (decide (¬ (a.1 = n ∧ a.2 ∉ seen ++ [n])) : Bool) = true := by
        simp [han]
      rw [h1, Bool.and_true, h2]
      simp only [decide_eq_decide]
      have hmem : a.1 ∈ n :: rest ↔ a.1 ∈ rest := by
        constructor
        · intro hh
          rcases List.mem_cons.mp hh with hh | hh
          · exact absurd hh han
          · exact hh
        · exact List.mem_cons_of_mem n
      have happ : seen ++ n :: upto rest a.1 = seen ++ [n] ++ upto rest a.1 := by
        rw [List.append_assoc]
        rfl
      rw [hmem, happ]

theorem pruneArcs_eq_filter {arcs0 : List (Nat × Nat)} {order : List Nat}
    (h : order.Nodup) :
    pruneArcs arcs0 order =
      arcs0.filter fun a => decide (a.1 ∈ order → a.2 ∈ upto order a.1) := by
  unfold pruneArcs
  have := prune_fold_eq order arcs0 [] (by simpa using h)
  simpa using this

theorem mem_upto_iff : ∀ {order : List Nat} {x y : Nat}, x ∈ order →
    (y ∈ upto order x ↔ idxIn order y ≤ idxIn order x) := by
  intro order
  induction order with
  | nil =>
    intro x y hx
    simp at hx
  | cons h0 rest ih =>
    intro x y hx
    by_cases hh : h0 = x
    · subst hh
      have hupto : upto (h0 :: rest) h0 = [h0] := by
        unfold upto
        rw [List.takeWhile_cons, show (decide (h0 ≠ h0) : Bool) = false by simp]
        simp
      rw [hupto]
      constructor
      · intro hy
        rw [List.mem_singleton] at hy
        subst hy
        exact le_refl _
      · intro hy
        rw [List.mem_singleton]
        have h0idx : idxIn (h0 :: rest) h0 = 0 := by simp [idxIn]
        rw [h0idx] at hy
        have hzero : idxIn (h0 :: rest) y = 0 := Nat.le_zero.mp hy
        by_cases hne : h0 = y
        · exact hne.symm
        · exfalso
          simp only [idxIn, if_neg hne] at hzero
          omega
    · have hx2 : x ∈ rest := by
        rcases List.mem_cons.mp hx with hh2 | hh2
        · exact absurd hh2.symm hh
        · exact hh2
      have hupto : upto (h0 :: rest) x = h0 :: upto rest x := by
        unfold upto
        rw [List.takeWhile_cons, show (decide (h0 ≠ x) : Bool) = true by simp [hh]]
        rfl
      rw [hupto]
      by_cases hy : h0 = y
      · subst hy
        simp [idxIn, hh]
      · simp only [List.mem_cons, idxIn, if_neg hy, if_neg hh]
        rw [ih hx2]
        constructor
        · rintro (hh2 | hh2)
          · exact absurd hh2.symm hy
          · omega
        · intro hh2
          right
          omega

theorem pruneArcs_mem {arcs0 : List (Nat × Nat)} {order : List Nat}
    (h : order.Nodup) {a : Nat × Nat} (hsrc : a.1 ∈ order) :
    a ∈ pruneArcs arcs0 order ↔ a ∈ arcs0 ∧ idxIn order a.2 ≤ idxIn order a.1 := by
  rw [pruneArcs_eq_filter h, List.mem_filter]
  constructor
  · rintro ⟨h1, h2⟩
    rw [decide_eq_true_eq] at h2
    exact ⟨h1, (mem_upto_iff hsrc).mp (h2 hsrc)⟩
  · rintro ⟨h1, h2⟩
    refine ⟨h1, ?_⟩
    rw [decide_eq_true_eq]
    intro _
    exact (mem_upto_iff hsrc).mpr h2

theorem pruneArcs_sublist (arcs0 : List (Nat × Nat)) (order : List Nat)
    (h : order.Nodup) : (pruneArcs arcs0 order).Sublist arcs0 := by
  rw [pruneArcs_eq_filter h]
  exact List.filter_sublist _

theorem normPair_swap (x y : Nat) : normPair (x, y) = normPair (y, x) := by
  unfold normPair
  dsimp only
  by_cases h1 : x ≤ y
  · by_cases h2 : y ≤ x
    · rw [if_pos h1, if_pos h2, Nat.le_antisymm h1 h2]
    · rw [if_pos h1, if_neg h2]
  · by_cases h2 : y ≤ x
    · rw [if_neg h1, if_pos h2]
    · exfalso
      omega

theorem normPair_of_arc {e : (Nat × Nat) × Option Nat} {a : Nat × Nat}
    (h : a ∈ [(e.1.1, e.1.2), (e.1.2, e.1.1)]) : normPair a = normPair e.1 := by
  rcases List.mem_cons.mp h with rfl | h
  · rfl
  · rw [List.mem_singleton] at h
    subst h
    exact normPair_swap _ _

theorem flat_arcs_nodup : ∀ (es : List ((Nat × Nat) × Option Nat)),
    (es.map fun e => normPair e.1).Nodup →
    (∀ e ∈ es, e.1.1 ≠ e.1.2) →
    (es.flatMap fun e => [(e.1.1, e.1.2), (e.1.2, e.1.1)]).Nodup := by
  intro es
  induction es with
  | nil =>
    intro _ _
    simp
  | cons e es ih =>
    intro hnd hns
    rw [List.map_cons, List.nodup_cons] at hnd
    rw [List.flatMap_cons, List.nodup_append]
    refine ⟨?_, ih hnd.2 (fun e' he' => hns e' (List.mem_cons_of_mem _ he')), ?_⟩
    · refine List.nodup_cons.mpr ⟨?_, List.nodup_singleton _⟩
      rw [List.mem_singleton]
      intro hcontra
      rw [Prod.mk.injEq] at hcontra
      exact hns e (List.mem_cons_self _ _) hcontra.1
    · intro a ha1 ha2
      obtain ⟨e', he', hm'⟩ := List.mem_flatMap.mp ha2
      refine hnd.1 ?_
      have h1 : normPair a = normPair e.1 := normPair_of_arc ha1
      have h2 : normPair a = normPair e'.1 := normPair_of_arc hm'
      rw [List.mem_map]
      exact ⟨e', he', by rw [← h2, h1]⟩

theorem to_directed_nodup {t : Gr}
    (hnd : (t.edges.map fun e => normPair e.1).Nodup)
    (hns : ∀ e ∈ t.edges, e.1.1 ≠ e.1.2) :
    (to_directed t).Nodup :=
  flat_arcs_nodup t.edges hnd hns

/-! ## Infrastructure: facts following from a validated input -/

theorem hasEdge_iff {g : Gr} {u v : Nat} :
    hasEdge g u v = true ↔ ∃ e ∈ g.edges, e.1 = (u, v) ∨ e.1 = (v, u) := by
  unfold hasEdge
  rw [List.any_eq_true]
  simp only [decide_eq_true_eq]

theorem validInput_facts {g t : Gr} {root : Nat} (hv : ValidInput g t root) :
    root ∈ t.nodes ∧
    (∀ e ∈ t.edges, e.1.1 ∈ t.nodes ∧ e.1.2 ∈ t.nodes) ∧
    (∀ e ∈ t.edges, e.1.1 ≠ e.1.2) ∧
    is_connected t = true ∧
    t.edges.length = t.nodes.length - 1 ∧
    (t.edges.map fun e => normPair e.1).Nodup ∧ t.nodes.Nodup := by
  obtain ⟨hg, ht, _, hst, hroot, _, htnd, _, hte, hnp⟩ := hv
  obtain ⟨hcg, hitog⟩ := check_input_tree_ok ht
  obtain ⟨hconn, hself, _⟩ := check_input_graph_ok hcg
  have hns := no_self_loops hself hte
  have htree : is_tree t = true := by
    unfold is_tree_of_graph at hitog
    rw [Bool.and_eq_true] at hitog
    exact hitog.2
  obtain ⟨_, hcount, _⟩ := is_tree_parts htree
  have hnum : numEdges t = t.edges.length := by
    unfold numEdges
    rw [List.dedup_eq_self.mpr hnp, List.length_map]
  refine ⟨hst root hroot, hte, hns, hconn, ?_, hnp, htnd⟩
  rw [← hnum]
  exact hcount

/-- Per-edge contribution to the pruned arc list: of the two
orientations of a tree edge, exactly one survives pruning. -/
theorem filter_flat_arcs_length {order : List Nat} :
    ∀ (es : List ((Nat × Nat) × Option Nat)),
      (∀ e ∈ es, e.1.1 ∈ order ∧ e.1.2 ∈ order) →
      (∀ e ∈ es, e.1.1 ≠ e.1.2) →
      ((es.flatMap fun e => [(e.1.1, e.1.2), (e.1.2, e.1.1)]).filter
        fun a => decide (a.1 ∈ order → a.2 ∈ upto order a.1)).length = es.length := by
  intro es
  induction es with
  | nil =>
    intro _ _
    simp
  | cons e es ih =>
    intro hmem hns
    rw [List.flatMap_cons, List.filter_append, List.length_append,
      ih (fun e' h => hmem e' (List.mem_cons_of_mem _ h))
        (fun e' h => hns e' (List.mem_cons_of_mem _ h))]
    have h1 := (hmem e (List.mem_cons_self _ _)).1
    have h2 := (hmem e (List.mem_cons_self _ _)).2
    have hne := hns e (List.mem_cons_self _ _)
    have hidx : idxIn order e.1.1 ≠ idxIn order e.1.2 := fun hh => hne (idxIn_inj h1 h2 hh)
    rcases Nat.lt_or_ge (idxIn order e.1.2) (idxIn order e.1.1) with hlt | hge
    · rw [List.filter_cons_of_pos (by
          simp only [decide_eq_true_eq]
          intro _
          exact (mem_upto_iff h1).mpr (Nat.le_of_lt hlt)),
        List.filter_cons_of_neg (by
          simp only [decide_eq_true_eq]
          intro hcontra
          have := (mem_upto_iff h2).mp (hcontra h2)
          omega),
        List.filter_nil]
      simp only [List.length_cons, List.length_nil]
      omega
    · have hlt2 : idxIn order e.1.1 < idxIn order e.1.2 := by omega
      rw [List.filter_cons_of_neg (by
          simp only [decide_eq_true_eq]
          intro hcontra
          have := (mem_upto_iff h1).mp (hcontra h1)
          omega),
        List.filter_cons_of_pos (by
          simp only [decide_eq_true_eq]
          intro _
          exact (mem_upto_iff h2).mpr (Nat.le_of_lt hlt2)),
        List.filter_nil]
      simp only [List.length_cons, List.length_nil]
      omega

theorem runArcs_length {g t : Gr} {root : Nat} (hv : ValidInput g t root) :
    (runArcs t false root).length = t.edges.length := by
  obtain ⟨hroot, hte, hns, hconn, _, _, _⟩ := validInput_facts hv
  obtain ⟨hcov, hnd⟩ := runOrder_covers hroot hte hns hconn
  unfold runArcs to_directed
  rw [pruneArcs_eq_filter hnd]
  exact filter_flat_arcs_length t.edges
    (fun e he => ⟨(hcov _).mpr (hte e he).1, (hcov _).mpr (hte e he).2⟩) hns

theorem runArcs_nodup {g t : Gr} {root : Nat} (hv : ValidInput g t root) :
    (runArcs t false root).Nodup := by
  obtain ⟨hroot, hte, hns, hconn, _, hnp, _⟩ := validInput_facts hv
  obtain ⟨_, hnd⟩ := runOrder_covers hroot hte hns hconn
  exact (pruneArcs_sublist _ _ hnd).nodup (to_directed_nodup hnp hns)

/-! ## Infrastructure: dictionary keys and values through the fold -/

theorem updateDict_keys (d : Dict) (k : Nat × Nat) (v : Nat × Nat) :
    (updateDict d k v).map Prod.fst = d.map Prod.fst := by
  unfold updateDict
  rw [List.map_map]
  refine List.map_congr_left ?_
  intro kv _
  by_cases h : kv.1 = k <;> simp [h]

theorem dict_keys_match_search (o : Option (Nat × Nat)) (d : Dict) (k2 : Nat × Nat) :
    ((match o with | none => d | some e2 => updateDict d k2 e2 : Dict)).map Prod.fst
      = d.map Prod.fst := by
  cases o with
  | none => rfl
  | some e2 => exact updateDict_keys d k2 e2

theorem subStep_dict_keys (g t : Gr) (fixed : List WEdge) (restricted : List (Nat × Nat))
    (order : List Nat) (desc : List (Nat × List Nat)) (st : List WEdge × Dict) (ne : WEdge) :
    ((subStep g t fixed restricted order desc st ne).2).map Prod.fst
      = st.2.map Prod.fst := by
  unfold subStep
  by_cases hfix : ne ∈ fixed
  · rw [if_pos hfix]
  · rw [if_neg hfix]
    exact dict_keys_match_search _ _ _

theorem runSubstitute_keys (g t : Gr) (fixed : List WEdge) (restricted : List (Nat × Nat))
    (ordered : Bool) (root : Nat) :
    ((runSubstitute g t fixed restricted ordered root).2).map Prod.fst
      = (runOrderedEdges g t ordered root).map (fun e => e.2) := by
  unfold runSubstitute
  have hfold : ∀ (oe' : List WEdge) (st : List WEdge × Dict),
      ((oe'.foldl (subStep g t fixed restricted (runOrder t ordered root)
        (runDesc t ordered root)) st).2).map Prod.fst = st.2.map Prod.fst := by
    intro oe'
    induction oe' with
    | nil => intro st; rfl
    | cons ne rest ih =>
      intro st
      rw [List.foldl_cons, ih, subStep_dict_keys]
  rw [hfold]
  dsimp only
  rw [List.map_map]
  rfl

theorem runSubstitute_keys_perm (g t : Gr) (fixed : List WEdge)
    (restricted : List (Nat × Nat)) (root : Nat) :
    ((runSubstitute g t fixed restricted false root).2.map Prod.fst).Perm
      ((runArcs t false root).map fun a => (a.2, a.1)) := by
  rw [runSubstitute_keys]
  unfold runOrderedEdges postorderedEdges
  have hperm := List.perm_insertionSort (edgeKeyLe (runOrder t false root))
    ((runArcs t false root).map fun a => ((weightUV g a.1 a.2).getD 0, a.2, a.1))
  have h2 := hperm.map (fun e : WEdge => e.2)
  rw [List.map_map] at h2
  exact h2

theorem mem_match_search {o : Option (Nat × Nat)} {d : Dict} {k2 : Nat × Nat}
    {kv : (Nat × Nat) × List (Nat × Nat)}
    (h : kv ∈ (match o with | none => d | some e2 => updateDict d k2 e2 : Dict)) :
    kv ∈ d ∨ ∃ e2, ∃ kv0 ∈ d, kv0.1 = k2 ∧ kv = (kv0.1, kv0.2 ++ [e2]) := by
  cases o with
  | none => exact Or.inl h
  | some e2 =>
    unfold updateDict at h
    obtain ⟨kv0, hkv0, heq⟩ := List.mem_map.mp h
    by_cases hk : kv0.1 = k2
    · rw [if_pos hk] at heq
      exact Or.inr ⟨e2, kv0, hkv0, hk, heq.symm⟩
    · rw [if_neg hk] at heq
      exact Or.inl (heq ▸ hkv0)

theorem foldl_subStep_values (g t : Gr) (fixed : List WEdge) (restricted : List (Nat × Nat))
    (order : List Nat) (desc : List (Nat × List Nat)) :
    ∀ (oe' : List WEdge) (qc0 : List WEdge) (d0 : Dict),
      (oe'.map fun e => e.2).Nodup →
      (∀ kv ∈ d0, kv.2.length ≤ 1 ∧ (kv.1 ∈ oe'.map (fun e => e.2) → kv.2 = [])) →
      ∀ kv ∈ (oe'.foldl (subStep g t fixed restricted order desc) (qc0, d0)).2,
        kv.2.length ≤ 1 := by
  intro oe'
  induction oe' with
  | nil =>
    intro qc0 d0 _ hd kv hkv
    exact (hd kv hkv).1
  | cons ne rest ih =>
    intro qc0 d0 hnd hd
    rw [List.map_cons, List.nodup_cons] at hnd
    rw [List.foldl_cons]
    have hd1 : ∀ kv ∈ (subStep g t fixed restricted order desc (qc0, d0) ne).2,
        kv.2.length ≤ 1 ∧ (kv.1 ∈ rest.map (fun e => e.2) → kv.2 = []) := by
      intro kv hkv
      unfold subStep at hkv
      by_cases hfix : ne ∈ fixed
      · rw [if_pos hfix] at hkv
        obtain ⟨hl, he⟩ := hd kv hkv
        exact ⟨hl, fun hm => he (by rw [List.map_cons]; exact List.mem_cons_of_mem _ hm)⟩
      · rw [if_neg hfix] at hkv
        dsimp only at hkv
        rcases mem_match_search hkv with hkv2 | ⟨e2, kv0, hkv0, hk, rfl⟩
        · obtain ⟨hl, he⟩ := hd kv hkv2
          exact ⟨hl, fun hm => he (by rw [List.map_cons]; exact List.mem_cons_of_mem _ hm)⟩
        · have hempty : kv0.2 = [] := by
            refine (hd kv0 hkv0).2 ?_
            rw [List.map_cons, hk]
            exact List.mem_cons_self _ _
          constructor
          · rw [hempty]
            simp
          · intro hm
            dsimp only at hm
            rw [hk] at hm
            exact absurd hm hnd.1
    rcases hst : subStep g t fixed restricted order desc (qc0, d0) ne with ⟨qc1, d1⟩
    rw [hst] at hd1
    exact ih qc1 d1 hnd.2 hd1

/-! ## Infrastructure: C5 assembly -/

theorem swap_injective : Function.Injective (fun a : Nat × Nat => (a.2, a.1)) := by
  intro a b h
  rw [Prod.mk.injEq] at h
  exact Prod.ext h.2 h.1

theorem arc_endpoints {t : Gr} {a : Nat × Nat}
    (hte : ∀ e ∈ t.edges, e.1.1 ∈ t.nodes ∧ e.1.2 ∈ t.nodes)
    (hns : ∀ e ∈ t.edges, e.1.1 ≠ e.1.2)
    (ha : a ∈ to_directed t) : a.1 ∈ t.nodes ∧ a.2 ∈ t.nodes ∧ a.1 ≠ a.2 := by
  rcases a with ⟨a1, a2⟩
  obtain ⟨e, he, h | h⟩ := mem_to_directed.mp ha
  · have h1 : e.1.1 = a1 := by rw [h]
    have h2 : e.1.2 = a2 := by rw [h]
    exact ⟨h1 ▸ (hte e he).1, h2 ▸ (hte e he).2,
      fun hh => hns e he (by rw [h1, h2]; exact hh)⟩
  · have h1 : e.1.1 = a2 := by rw [h]
    have h2 : e.1.2 = a1 := by rw [h]
    exact ⟨h2 ▸ (hte e he).2, h1 ▸ (hte e he).1,
      fun hh => hns e he (by rw [h1, h2]; exact hh.symm)⟩

/-- Main lemma for C5: the key-set structure of the substitute
dictionary on the DFS path (keys oriented child-to-parent). -/
theorem C5_amended_main (g t : Gr) (fixed : List WEdge) (restricted : List (Nat × Nat))
    (root : Nat) (hv : ValidInput g t root) : C5Concl g t fixed restricted root := by
  obtain ⟨hroot, hte, hns, hconn, hlen, hnp, htnd⟩ := validInput_facts hv
  obtain ⟨hcov, hond⟩ := runOrder_covers hroot hte hns hconn
  have hperm := runSubstitute_keys_perm g t fixed restricted root
  have harcnd := runArcs_nodup hv
  have harclen := runArcs_length hv
  have harcmem : ∀ a : Nat × Nat, a ∈ runArcs t false root ↔
      a ∈ to_directed t ∧
        idxIn (runOrder t false root) a.2 ≤ idxIn (runOrder t false root) a.1 := by
    intro a
    by_cases hin : a ∈ to_directed t
    · have hsrc : a.1 ∈ runOrder t false root :=
        (hcov _).mpr (arc_endpoints hte hns hin).1
      exact pruneArcs_mem hond hsrc
    · constructor
      · intro hmem
        exact absurd ((pruneArcs_sublist _ _ hond).subset hmem) hin
      · rintro ⟨h1, _⟩
        exact absurd h1 hin
  refine ⟨?_, ?_, ?_, ?_, ?_⟩
  · rw [hperm.length_eq, List.length_map, harclen, hlen]
  · rw [hperm.nodup_iff]
    exact harcnd.map swap_injective
  · intro k hk
    rw [hperm.mem_iff] at hk
    obtain ⟨a, ha, rfl⟩ := List.mem_map.mp hk
    obtain ⟨hatd, hidx⟩ := (harcmem a).mp ha
    obtain ⟨ha1, ha2, hane⟩ := arc_endpoints hte hns hatd
    rcases a with ⟨u, v⟩
    dsimp only at hidx ha1 ha2 hane ⊢
    constructor
    · rw [hasEdge_iff]
      obtain ⟨e, he, h | h⟩ := mem_to_directed.mp hatd
      · exact ⟨e, he, Or.inr h⟩
      · exact ⟨e, he, Or.inl h⟩
    · unfold rankOf
      have hne2 : idxIn (runOrder t false root) v ≠ idxIn (runOrder t false root) u :=
        fun hh => hane (idxIn_inj ((hcov v).mpr ha2) ((hcov u).mpr ha1) hh).symm
      omega
  · intro e he
    have hm1 : (e.1.1, e.1.2) ∈ to_directed t := mem_to_directed.mpr ⟨e, he, Or.inl rfl⟩
    have hm2 : (e.1.2, e.1.1) ∈ to_directed t := mem_to_directed.mpr ⟨e, he, Or.inr rfl⟩
    rcases Nat.lt_or_ge (idxIn (runOrder t false root) e.1.1)
        (idxIn (runOrder t false root) e.1.2) with hlt | hge
    · refine Or.inl ?_
      rw [hperm.mem_iff, List.mem_map]
      exact ⟨(e.1.2, e.1.1), (harcmem _).mpr ⟨hm2, Nat.le_of_lt hlt⟩, rfl⟩
    · refine Or.inr ?_
      rw [hperm.mem_iff, List.mem_map]
      exact ⟨(e.1.1, e.1.2), (harcmem _).mpr ⟨hm1, hge⟩, rfl⟩
  · have hkeysnd : ((runOrderedEdges g t false root).map fun e => e.2).Nodup := by
      rw [← runSubstitute_keys g t fixed restricted false root]
      rw [hperm.nodup_iff]
      exact harcnd.map swap_injective
    unfold runSubstitute
    refine foldl_subStep_values g t fixed restricted _ _ _ _ _ hkeysnd ?_
    intro kv hkv
    obtain ⟨e, _, rfl⟩ := List.mem_map.mp hkv
    exact ⟨by simp, fun _ => rfl⟩

/-! ## Claim theorems -/

/-- C10: a `substitute()` call leaves the caller-supplied graph, tree,
fixed edge set and restricted edge set (and the `ordered` flag) of the
object unchanged; the call only rewrites the traversal state (`directed`,
`postorder_nodes`, `descendants`, `quasi_cuts`) that it instantiates
fresh for that computation. -/
theorem C10_inputs_unchanged (s : SubState) (root : Nat) :
    (substituteS s root).1.graph = s.graph ∧
    (substituteS s root).1.tree = s.tree ∧
    (substituteS s root).1.fixed_edges = s.fixed_edges ∧
    (substituteS s root).1.restricted_edges = s.restricted_edges ∧
    (substituteS s root).1.ordered = s.ordered :=
  ⟨rfl, rfl, rfl, rfl, rfl⟩

/-- C1: on the valid input consisting of the 4-path graph with extra edge
(1,4), tree = the path and restricted set `[(1,4)]`, the run rooted at 1
returns the substitute `(4,1)` for tree edge `(4,3)` — i.e. exactly the
restricted edge, with its endpoints swapped.  The single-orientation
tuple test in `find_incident_edges` fails to filter the reversed
candidate `(4,1)`, so a restricted edge is returned as a substitute. -/
theorem C1_restricted_edge_returned :
    ValidInput g4 t4 1 ∧
    dictLookup (runSubstitute g4 t4 [] [(1, 4)] false 1).2 (4, 3) = some [(4, 1)] ∧
    ((4, 1) : Nat × Nat) = Prod.swap (1, 4) ∧
    ((4, 1) : Nat × Nat) ∉ [((1, 4) : Nat × Nat)] := by
  decide

/-- C8: substitute runs on identical valid inputs differing only in the
chosen root return genuinely different substitute assignments, even after
identifying edges up to orientation: on the 5-path plus equal-weight
chords (1,5) and (2,4), the run rooted at 5 assigns substitute {1,5} to
tree edge {3,4}, while the run rooted at 1 assigns {2,4} to it. -/
theorem C8_root_changes_output :
    ValidInput g5 t5 5 ∧ ValidInput g5 t5 1 ∧
    (runSubstitute g5 t5 [] [] false 5).2 =
      [((1, 2), [(1, 5)]), ((2, 3), [(1, 5)]), ((3, 4), [(1, 5)]), ((4, 5), [(1, 5)])] ∧
    (runSubstitute g5 t5 [] [] false 1).2 =
      [((5, 4), [(5, 1)]), ((4, 3), [(4, 2)]), ((3, 2), [(4, 2)]), ((2, 1), [(5, 1)])] ∧
    dictLookup (runSubstitute g5 t5 [] [] false 5).2 (3, 4) = some [(1, 5)] ∧
    dictLookup (runSubstitute g5 t5 [] [] false 1).2 (4, 3) = some [(4, 2)] ∧
    normPair (1, 5) ≠ normPair (4, 2) := by
  decide

/-- C9: a chosen substitute entry is retained in the quasi-cut set (step
2.2.c does not remove it), and on the triangle input the same non-tree
edge (1,3) is returned — as `(3,1)` — as the substitute of both tree
edges of the path 1-2-3 within a single run. -/
theorem C9_substitute_retained_and_reused :
    ValidInput g3 t3 1 ∧
    (runSubstitute g3 t3 [] [] false 1).2 = [((3, 2), [(3, 1)]), ((2, 1), [(3, 1)])] ∧
    (1, 3, 1) ∈ (runSubstitute g3 t3 [] [] false 1).1 ∧
    dictLookup (runSubstitute g3 t3 [] [] false 1).2 (3, 2) = some [(3, 1)] ∧
    dictLookup (runSubstitute g3 t3 [] [] false 1).2 (2, 1) = some [(3, 1)] ∧
    ((3, 2) : Nat × Nat) ≠ (2, 1) := by
  decide

/-- C3 counterexample: on the 4-path-plus-(1,4) scenario with the path as
tree and no constraints, the run (rooted at 4) gives the (1,4) edge as a
substitute for all three path edges — three keys receive a substitute,
not exactly one, and no path edge is mapped to "none". -/
theorem C3_counterexample :
    ValidInput g4 t4 4 ∧
    (runSubstitute g4 t4 [] [] false 4).2 =
      [((1, 2), [(1, 4)]), ((2, 3), [(1, 4)]), ((3, 4), [(1, 4)])] ∧
    ((runSubstitute g4 t4 [] [] false 4).2.filter fun kv => decide (kv.2 ≠ [])).length = 3 ∧
    dictLookup (runSubstitute g4 t4 [] [] false 4).2 (1, 2) ≠ some [] := by
  decide

/-- C3 amended: on the scenario graph, for every valid root choice the
run maps *every* path edge (there are three keys, one per path edge, up
to orientation) to exactly the extra edge {1,4} — the edge (1,4) bridges
the cut of each of the three path edges, and no key maps to "none". -/
theorem C3_amended (root : Nat) (h : root ∈ g4.nodes) :
    (runSubstitute g4 t4 [] [] false root).2.length = 3 ∧
    (∀ kv ∈ (runSubstitute g4 t4 [] [] false root).2,
      kv.2 = [(1, 4)] ∨ kv.2 = [(4, 1)]) ∧
    (∀ e ∈ [((1, 2) : Nat × Nat), (2, 3), (3, 4)],
      e ∈ (runSubstitute g4 t4 [] [] false root).2.map Prod.fst ∨
        Prod.swap e ∈ (runSubstitute g4 t4 [] [] false root).2.map Prod.fst) := by
  have h4 : root = 1 ∨ root = 2 ∨ root = 3 ∨ root = 4 := by
    simpa [g4] using h
  rcases h4 with h4 | h4 | h4 | h4 <;> subst h4 <;> decide

/-- C3 amended, witness at root 4. -/
theorem C3_amended_witness :
    4 ∈ g4.nodes ∧
    ((runSubstitute g4 t4 [] [] false 4).2.length = 3 ∧
    (∀ kv ∈ (runSubstitute g4 t4 [] [] false 4).2,
      kv.2 = [(1, 4)] ∨ kv.2 = [(4, 1)]) ∧
    (∀ e ∈ [((1, 2) : Nat × Nat), (2, 3), (3, 4)],
      e ∈ (runSubstitute g4 t4 [] [] false 4).2.map Prod.fst ∨
        Prod.swap e ∈ (runSubstitute g4 t4 [] [] false 4).2.map Prod.fst)) :=
  ⟨by decide, C3_amended 4 (by decide)⟩

/-- C7 counterexample: `tNS` is a tree on nodes {1,2} that does not touch
node 3 of the path graph `gP3`, yet both `check_input_tree` and the
`Substitute` constructor accept it without error. -/
theorem C7_counterexample :
    check_input_graph gP3 = .ok () ∧
    check_input_tree tNS gP3 = .ok () ∧
    substituteInit gP3 tNS [] [] false = .ok ⟨gP3, tNS, [], [], false, [], [], [], []⟩ ∧
    3 ∈ gP3.nodes ∧ 3 ∉ tNS.nodes := by
  decide

/-- C7 amended: construction does fail whenever some tree edge is absent
from the graph, or the tree fails the tree test (acyclicity/edge count),
or the tree fails graph validation (disconnected, self-loop, unweighted);
it does not check that the tree touches every node of the graph. -/
theorem C7_amended (t g : Gr)
    (h : (∃ e ∈ t.edges, hasEdge g e.1.1 e.1.2 = false) ∨ is_tree t = false ∨
      check_input_graph t ≠ .ok ()) :
    ∃ m, check_input_tree t g = .error m := by
  unfold check_input_tree
  cases hcg : check_input_graph t with
  | error m => exact ⟨m, rfl⟩
  | ok u =>
    cases u
    have htg : is_tree_of_graph t g = false := by
      rcases h with ⟨e, he, hee⟩ | h | h
      · unfold is_tree_of_graph
        have : ¬ t.edges.all (fun e => hasEdge g e.1.1 e.1.2) = true := by
          intro hall
          rw [List.all_eq_true] at hall
          have := hall e he
          rw [hee] at this
          exact Bool.false_ne_true this
        simp [Bool.eq_false_iff.mpr this]
      · unfold is_tree_of_graph
        simp [h]
      · exact absurd hcg h
    refine ⟨"Input tree is not a spanning tree.", ?_⟩
    simp [htg]

/-- C7 amended, witness: the triangle graph offered as its own spanning
tree fails the tree test and is rejected. -/
theorem C7_amended_witness :
    is_tree g3 = false ∧ ∃ m, check_input_tree g3 g3 = .error m :=
  ⟨by decide, C7_amended g3 g3 (Or.inr (Or.inl (by decide)))⟩

/-- C6 counterexample: on a valid input (path tree `t4b` of graph `g4b`,
which passes all validation) whose node list is in the legal but
non-postorder insertion order [2,1,3,4], a run through the trusted
`ordered=True` fast path of `postorder_tree` produces the descendant set
[1,3,4] for node 4 — not a contiguous range (2 is missing) — and at node
3 the incident candidate (1,3,1) with neighbour rank 2 satisfies none of
the three classification cases, so the classification is not exhaustive. -/
theorem C6_counterexample :
    ValidInput g4b t4b 2 ∧
    runOrder t4b true 0 = [2, 1, 3, 4] ∧
    descLookup (runDesc t4b true 0) 4 = [1, 3, 4] ∧
    (2 : Nat) ∉ descLookup (runDesc t4b true 0) 4 ∧
    (1, 3, 1) ∈ findIncidentEdges g4b t4b [] 3 ∧
    rankOf (runOrder t4b true 0) 1 = 2 ∧
    descLookup (runDesc t4b true 0) 3 = [1, 3] ∧
    ¬ (2 < (descLookup (runDesc t4b true 0) 3).headD 0) ∧
    (2 : Nat) ∉ descLookup (runDesc t4b true 0) 3 ∧
    ¬ ((descLookup (runDesc t4b true 0) 3).getLastD 0 < 2) := by
  decide

/-- The quasi-cut order is reflexive. -/
theorem wedgeLe_refl (a : WEdge) : wedgeLe a a :=
  Or.inr ⟨rfl, Or.inr ⟨rfl, le_rfl⟩⟩

/-- On a sorted list, `find?` returns a minimal element among the matches. -/
theorem find?_sorted_min {p : WEdge → Bool} :
    ∀ {qc : List WEdge}, List.Sorted wedgeLe qc → ∀ {c : WEdge}, qc.find? p = some c →
      ∀ c' ∈ qc, p c' = true → wedgeLe c c' := by
  intro qc
  induction qc with
  | nil => intro _ c hc; simp at hc
  | cons x xs ih =>
    intro hs c hc c' hc' hp
    rw [List.sorted_cons] at hs
    by_cases hx : p x = true
    · rw [List.find?_cons_of_pos _ hx] at hc
      cases hc
      rcases List.mem_cons.mp hc' with rfl | hmem
      · exact wedgeLe_refl _
      · exact hs.1 _ hmem
    · rw [List.find?_cons_of_neg _ (by simpa using hx)] at hc
      rcases List.mem_cons.mp hc' with rfl | hmem
      · exact absurd hp hx
      · exact ih hs.2 hc _ hmem hp

/-- Every postordered edge is its key's graph weight paired with its key:
the triple is `(weight(child, parent), child, parent)`. -/
theorem mem_runOrderedEdges_eq {g t : Gr} {ordered : Bool} {root : Nat} {e : WEdge}
    (he : e ∈ runOrderedEdges g t ordered root) :
    e = ((weightUV g e.2.2 e.2.1).getD 0, e.2) := by
  unfold runOrderedEdges postorderedEdges at he
  rw [(List.perm_insertionSort (edgeKeyLe (runOrder t ordered root)) _).mem_iff] at he
  obtain ⟨a, _, rfl⟩ := List.mem_map.mp he
  rfl

/-- Unfolding lemma: dictionary lookup on a cons cell. -/
theorem dictLookup_cons (x : (Nat × Nat) × List (Nat × Nat)) (d : Dict) (k : Nat × Nat) :
    dictLookup (x :: d) k = if x.1 = k then some x.2 else dictLookup d k := by
  by_cases h : x.1 = k
  · rw [if_pos h]
    unfold dictLookup
    rw [List.find?_cons_of_pos _ (by simpa using h)]
    rfl
  · rw [if_neg h]
    unfold dictLookup
    rw [List.find?_cons_of_neg _ (by simpa using h)]

/-- Updating a key of the dictionary leaves lookups of other keys alone. -/
theorem dictLookup_updateDict_ne (d : Dict) (k k' : Nat × Nat) (v : Nat × Nat)
    (h : k' ≠ k) : dictLookup (updateDict d k v) k' = dictLookup d k' := by
  induction d with
  | nil => rfl
  | cons kv d ih =>
    simp only [updateDict, List.map_cons] at ih ⊢
    by_cases hk : kv.1 = k
    · rw [if_pos hk, dictLookup_cons, dictLookup_cons,
        if_neg (fun hh : kv.1 = k' => h (hh ▸ hk)),
        if_neg (fun hh : kv.1 = k' => h (hh ▸ hk))]
      exact ih
    · rw [if_neg hk, dictLookup_cons, dictLookup_cons]
      by_cases hk' : kv.1 = k'
      · rw [if_pos hk', if_pos hk']
      · rw [if_neg hk', if_neg hk']
        exact ih

/-- In the freshly initialised dictionary every present key maps to `[]`. -/
theorem dictLookup_init : ∀ (oe : List WEdge) (k : Nat × Nat),
    (∃ e' ∈ oe, e'.2 = k) →
    dictLookup (oe.map fun e' => (e'.2, ([] : List (Nat × Nat)))) k = some [] := by
  intro oe
  induction oe with
  | nil =>
    intro k h
    obtain ⟨e', he', _⟩ := h
    simp at he'
  | cons x xs ih =>
    intro k h
    rw [List.map_cons, dictLookup_cons]
    by_cases hx : x.2 = k
    · rw [if_pos hx]
    · rw [if_neg hx]
      obtain ⟨e', he', hk⟩ := h
      rcases List.mem_cons.mp he' with rfl | hmem
      · exact absurd hk hx
      · exact ih k ⟨e', hmem, hk⟩

/-- Lemma for the search branch of one substitute step: whatever the
search returned, the entry of an unrelated key is untouched. -/
theorem dictLookup_match_search (o : Option (Nat × Nat)) (d : Dict) (k2 k : Nat × Nat)
    (hk : k2 ≠ k) (hd : dictLookup d k = some []) :
    dictLookup (match o with | none => d | some e2 => updateDict d k2 e2) k = some [] := by
  cases o with
  | none => exact hd
  | some e2 =>
    rw [dictLookup_updateDict_ne _ _ _ _ (Ne.symm hk)]
    exact hd

/-- The substitute fold never touches the entry of a key all of whose
postordered edges are skipped as fixed. -/
theorem foldl_subStep_fixed_inv (g t : Gr) (fixed : List WEdge)
    (restricted : List (Nat × Nat)) (order : List Nat) (desc : List (Nat × List Nat))
    (k : Nat × Nat) :
    ∀ (oe' : List WEdge) (qc0 : List WEdge) (d0 : Dict),
      (∀ e' ∈ oe', e'.2 = k → e' ∈ fixed) → dictLookup d0 k = some [] →
      dictLookup (oe'.foldl (subStep g t fixed restricted order desc) (qc0, d0)).2 k = some [] := by
  intro oe'
  induction oe' with
  | nil => intro qc0 d0 _ hd; exact hd
  | cons ne oe' ih =>
    intro qc0 d0 hsub hd
    rw [List.foldl_cons]
    have hnext : dictLookup (subStep g t fixed restricted order desc (qc0, d0) ne).2 k
        = some [] := by
      by_cases hfix : ne ∈ fixed
      · simp only [subStep, if_pos hfix]
        exact hd
      · have hkey : ne.2 ≠ k := fun hh => hfix (hsub ne (List.mem_cons_self _ _) hh)
        simp only [subStep, if_neg hfix]
        exact dictLookup_match_search _ _ _ _ hkey hd
    have hsub' : ∀ e' ∈ oe', e'.2 = k → e' ∈ fixed :=
      fun e' hm => hsub e' (List.mem_cons_of_mem _ hm)
    rcases hst : subStep g t fixed restricted order desc (qc0, d0) ne with ⟨qc1, d1⟩
    rw [hst] at hnext
    exact ih qc1 d1 hsub' hnext

/-- C2: for every postordered tree edge whose weighted triple is in the
fixed edge set, `substitute()` skips the substitute search for that edge
and leaves its entry empty ("none"), regardless of which equal-weight
alternatives exist in the graph. -/
theorem C2_fixed_edge_maps_to_none (g t : Gr) (fixed : List WEdge)
    (restricted : List (Nat × Nat)) (ordered : Bool) (root : Nat) (e : WEdge)
    (he : e ∈ runOrderedEdges g t ordered root) (hf : e ∈ fixed) :
    dictLookup (runSubstitute g t fixed restricted ordered root).2 e.2 = some [] := by
  unfold runSubstitute
  refine foldl_subStep_fixed_inv g t fixed restricted _ _ e.2 _ _ _ ?_ ?_
  · intro e' he' hk
    have h1 := mem_runOrderedEdges_eq he'
    have h2 := mem_runOrderedEdges_eq he
    have : e' = e := by rw [h1, hk, ← h2]
    exact this ▸ hf
  · exact dictLookup_init _ _ ⟨e, he, rfl⟩

/-- C2 witness: on the 4-path scenario with the tree edge (3,4) fixed
(as the oriented weighted triple (1,4,3) of the root-1 run), the entry of
key (4,3) stays empty even though the equal-weight non-tree edge (1,4)
bridges its cut. -/
theorem C2_fixed_edge_maps_to_none_witness :
    ((1, 4, 3) ∈ runOrderedEdges g4 t4 false 1 ∧ ((1 : Nat), 4, 3) ∈ [((1 : Nat), 4, 3)]) ∧
    dictLookup (runSubstitute g4 t4 [(1, 4, 3)] [] false 1).2 (4, 3) = some [] :=
  ⟨⟨by decide, by decide⟩,
    C2_fixed_edge_maps_to_none g4 t4 [(1, 4, 3)] [] false 1 (1, 4, 3) (by decide) (by decide)⟩

/-- C4 counterexample: a sorted quasi-cut set containing the single entry
(5,3,1), where the *target* node 1 has rank 1, inside the descendant set
[1,2] of the query node 2, and the weight matches the query weight 5.
The operation described by the spec (test the target's rank) returns the
entry, but the code's `equal_weight_descendant` (which tests the *source*
node 3, of rank 3) returns "none". -/
theorem C4_counterexample :
    List.Sorted wedgeLe [((5 : Nat), 3, 1)] ∧
    equalWeightDescendant [1, 2, 3] dEx [((5 : Nat), 3, 1)] (5, 2, 9) = none ∧
    findFirstMatchingSpec [1, 2, 3] dEx [((5 : Nat), 3, 1)] (5, 2, 9) = some (5, 3, 1) ∧
    rankOf [1, 2, 3] 1 ∈ descLookup dEx 2 ∧
    (((5 : Nat), 3, 1) : WEdge).1 = (((5 : Nat), 2, 9) : WEdge).1 := by
  decide

/-- C4 amended: `equal_weight_descendant` scans the quasi-cut set in
ascending (weight, source, target) order and returns the first — hence a
(weight, source, target)-minimal — entry whose *source* node's postorder
rank lies in the descendant index set of the query edge's start node and
whose weight equals the query weight; it returns "none" exactly when no
such entry exists.  (The spec's wording "target rank" does not match the
code, which tests the entry's second component.) -/
theorem C4_amended (order : List Nat) (desc : List (Nat × List Nat)) (qc : List WEdge)
    (we : WEdge) (hs : List.Sorted wedgeLe qc) :
    (equalWeightDescendant order desc qc we = none ↔
      ∀ c ∈ qc, ¬ (rankOf order c.2.1 ∈ descLookup desc we.2.1 ∧ c.1 = we.1)) ∧
    ∀ c, equalWeightDescendant order desc qc we = some c →
      c ∈ qc ∧ (rankOf order c.2.1 ∈ descLookup desc we.2.1 ∧ c.1 = we.1) ∧
      ∀ c' ∈ qc, (rankOf order c'.2.1 ∈ descLookup desc we.2.1 ∧ c'.1 = we.1) →
        wedgeLe c c' := by
  constructor
  · simp only [equalWeightDescendant, List.find?_eq_none, decide_eq_true_eq]
  · intro c hc
    refine ⟨List.mem_of_find?_eq_some hc, ?_, ?_⟩
    · have := List.find?_some hc
      simpa using this
    · intro c' hc' hp
      exact find?_sorted_min hs hc c' hc' (by simpa using hp)

/-- C5 counterexample: on the 4-path scenario rooted at 1 the pruned
forest's parent-to-child arcs are (1,2), (2,3), (3,4), but the keys of
the returned dictionary are (2,1), (3,2), (4,3) — oriented
child-to-parent (the first component has the smaller rank), and the
claim's parent-to-child key (1,2) is not a key at all. -/
theorem C5_counterexample :
    ValidInput g4 t4 1 ∧
    runArcs t4 false 1 = [(1, 2), (2, 3), (3, 4)] ∧
    (runSubstitute g4 t4 [] [] false 1).2.map Prod.fst = [(4, 3), (3, 2), (2, 1)] ∧
    ((1, 2) : Nat × Nat) ∉ (runSubstitute g4 t4 [] [] false 1).2.map Prod.fst ∧
    rankOf (runOrder t4 false 1) 2 < rankOf (runOrder t4 false 1) 1 := by
  decide

/-- C5 amended: for every valid input and root (DFS path), the mapping
has exactly node-count-minus-one distinct keys; each key is a tree edge
oriented child-to-parent with respect to the chosen root; every tree
edge appears as a key in one of its orientations (in particular every
non-fixed one); and every key is mapped to zero or one substitute. -/
theorem C5_amended (g t : Gr) (fixed : List WEdge) (restricted : List (Nat × Nat))
    (root : Nat) (hv : ValidInput g t root) : C5Concl g t fixed restricted root :=
  C5_amended_main g t fixed restricted root hv

/-- C5 amended, witness on the 4-path scenario rooted at 1. -/
theorem C5_amended_witness : ValidInput g4 t4 1 ∧ C5Concl g4 t4 [] [] 1 :=
  ⟨by decide, C5_amended g4 t4 [] [] 1 (by decide)⟩

/-- C4 amended, witness: on a concrete sorted two-entry cut set the
returned entry is the first match and is minimal among the matches. -/
theorem C4_amended_witness :
    List.Sorted wedgeLe [((1 : Nat), 1, 3), ((1 : Nat), 2, 3)] ∧
    ((equalWeightDescendant [1, 2, 3] dEx [((1 : Nat), 1, 3), ((1 : Nat), 2, 3)] (1, 2, 9) = none ↔
      ∀ c ∈ [((1 : Nat), 1, 3), ((1 : Nat), 2, 3)],
        ¬ (rankOf [1, 2, 3] c.2.1 ∈ descLookup dEx 2 ∧ c.1 = 1)) ∧
    ∀ c, equalWeightDescendant [1, 2, 3] dEx [((1 : Nat), 1, 3), ((1 : Nat), 2, 3)] (1, 2, 9) = some c →
      c ∈ [((1 : Nat), 1, 3), ((1 : Nat), 2, 3)] ∧
      (rankOf [1, 2, 3] c.2.1 ∈ descLookup dEx 2 ∧ c.1 = 1) ∧
      ∀ c' ∈ [((1 : Nat), 1, 3), ((1 : Nat), 2, 3)],
        (rankOf [1, 2, 3] c'.2.1 ∈ descLookup dEx 2 ∧ c'.1 = 1) → wedgeLe c c') :=
  ⟨by decide, C4_amended [1, 2, 3] dEx [(1, 1, 3), (1, 2, 3)] (1, 2, 9) (by decide)⟩

/-! ## Infrastructure: interval structure of the DFS postorder (for C6) -/

/-- Unfolding of the arc-to-earlier step relation. -/
theorem stepIn_def {adj : Nat → List Nat} {L : List Nat} {x y : Nat} :
    StepIn adj L x y ↔ x ∈ L ∧ y ∈ L ∧ y ∈ adj x ∧ idxIn L y < idxIn L x := Iff.rfl

/-- A node reached along arcs-to-earlier is the start node or a member. -/
theorem reachIn_mem {adj : Nat → List Nat} {L : List Nat} {x y : Nat}
    (h : ReachIn adj L x y) : y = x ∨ y ∈ L := by
  induction h with
  | refl => exact Or.inl rfl
  | tail _ hstep _ => exact Or.inr (stepIn_def.mp hstep).2.1

/-- Arc steps started inside a prefix are exactly the arc steps of the
prefix: the step target's position is yet smaller, hence in the prefix. -/
theorem stepIn_pre {adj : Nat → List Nat} {L1 L2 : List Nat} {a b : Nat}
    (ha : a ∈ L1) :
    StepIn adj (L1 ++ L2) a b ↔ StepIn adj L1 a b := by
  rw [stepIn_def, stepIn_def]
  constructor
  · rintro ⟨_, h2, h3, h4⟩
    rw [idxIn_append_left ha] at h4
    have hbL1 : b ∈ L1 := by
      by_contra hb
      rw [idxIn_append_right hb] at h4
      have := idxIn_lt_length ha
      omega
    rw [idxIn_append_left hbL1] at h4
    exact ⟨ha, hbL1, h3, h4⟩
  · rintro ⟨h1, h2, h3, h4⟩
    refine ⟨List.mem_append_left _ h1, List.mem_append_left _ h2, h3, ?_⟩
    rw [idxIn_append_left h1, idxIn_append_left h2]
    exact h4

theorem reachIn_pre_aux {adj : Nat → List Nat} {L1 L2 : List Nat} {a b : Nat}
    (h : ReachIn adj (L1 ++ L2) a b) : a ∈ L1 → ReachIn adj L1 a b := by
  have h2 : Relation.ReflTransGen (StepIn adj (L1 ++ L2)) a b := h
  clear h
  induction h2 using Relation.ReflTransGen.head_induction_on with
  | refl => intro _; exact Relation.ReflTransGen.refl
  | head hstep _ ih =>
    intro haL
    have hs := (stepIn_pre haL).mp hstep
    exact Relation.ReflTransGen.head hs (ih (stepIn_def.mp hs).2.1)

/-- Reachability along arcs-to-earlier from a node of a prefix is
reachability inside the prefix. -/
theorem reachIn_pre {adj : Nat → List Nat} {L1 L2 : List Nat} {a b : Nat}
    (ha : a ∈ L1) :
    ReachIn adj (L1 ++ L2) a b ↔ ReachIn adj L1 a b := by
  constructor
  · intro h
    exact reachIn_pre_aux h ha
  · intro h
    exact Relation.ReflTransGen.mono
      (fun x y hxy => (stepIn_pre (stepIn_def.mp hxy).1).mpr hxy) h

/-- Arc steps started inside an adjacency-separated suffix are exactly
the arc steps of the suffix. -/
theorem stepIn_suf {adj : Nat → List Nat} {L1 L2 : List Nat}
    (hnd : (L1 ++ L2).Nodup)
    (hnc : ∀ x ∈ L2, ∀ y ∈ adj x, y ∉ L1) {a b : Nat} (ha : a ∈ L2) :
    StepIn adj (L1 ++ L2) a b ↔ StepIn adj L2 a b := by
  have hdisj : L1.Disjoint L2 := (List.nodup_append.mp hnd).2.2
  have haL1 : a ∉ L1 := fun hm => hdisj hm ha
  rw [stepIn_def, stepIn_def]
  constructor
  · rintro ⟨_, h2, h3, h4⟩
    have hbL1 : b ∉ L1 := hnc a ha b h3
    have hbL2 : b ∈ L2 := by
      rcases List.mem_append.mp h2 with hm | hm
      · exact absurd hm hbL1
      · exact hm
    rw [idxIn_append_right haL1, idxIn_append_right hbL1] at h4
    exact ⟨ha, hbL2, h3, by omega⟩
  · rintro ⟨h1, h2, h3, h4⟩
    have hbL1 : b ∉ L1 := hnc a ha b h3
    refine ⟨List.mem_append_right _ h1, List.mem_append_right _ h2, h3, ?_⟩
    rw [idxIn_append_right haL1, idxIn_append_right hbL1]
    omega

theorem reachIn_suf_aux {adj : Nat → List Nat} {L1 L2 : List Nat}
    (hnd : (L1 ++ L2).Nodup)
    (hnc : ∀ x ∈ L2, ∀ y ∈ adj x, y ∉ L1) {a b : Nat}
    (h : ReachIn adj (L1 ++ L2) a b) : a ∈ L2 → ReachIn adj L2 a b := by
  have h2 : Relation.ReflTransGen (StepIn adj (L1 ++ L2)) a b := h
  clear h
  induction h2 using Relation.ReflTransGen.head_induction_on with
  | refl => intro _; exact Relation.ReflTransGen.refl
  | head hstep _ ih =>
    intro haL
    have hs := (stepIn_suf hnd hnc haL).mp hstep
    exact Relation.ReflTransGen.head hs (ih (stepIn_def.mp hs).2.1)

/-- Reachability along arcs-to-earlier from a node of a suffix with no
adjacency back into the prefix is reachability inside the suffix. -/
theorem reachIn_suf {adj : Nat → List Nat} {L1 L2 : List Nat}
    (hnd : (L1 ++ L2).Nodup)
    (hnc : ∀ x ∈ L2, ∀ y ∈ adj x, y ∉ L1) {a b : Nat} (ha : a ∈ L2) :
    ReachIn adj (L1 ++ L2) a b ↔ ReachIn adj L2 a b := by
  constructor
  · intro h
    exact reachIn_suf_aux hnd hnc h ha
  · intro h
    exact Relation.ReflTransGen.mono
      (fun x y hxy => (stepIn_suf hnd hnc (stepIn_def.mp hxy).1).mpr hxy) h

theorem segSpec_nil (adj : Nat → List Nat) : SegSpec adj [] := by
  intro x hx
  simp at hx

/-- The interval property of prefix members transfers to the whole list. -/
theorem segSpec_pre_part {adj : Nat → List Nat} {L1 L2 : List Nat}
    (h1 : SegSpec adj L1) :
    ∀ x ∈ L1, ∃ i, i ≤ idxIn (L1 ++ L2) x ∧
      ∀ y, (ReachIn adj (L1 ++ L2) x y ↔
        y ∈ L1 ++ L2 ∧ i ≤ idxIn (L1 ++ L2) y ∧
          idxIn (L1 ++ L2) y ≤ idxIn (L1 ++ L2) x) := by
  intro x hx
  obtain ⟨i, hi, hiff⟩ := h1 x hx
  refine ⟨i, by rw [idxIn_append_left hx]; exact hi, ?_⟩
  intro y
  rw [reachIn_pre hx, hiff y, idxIn_append_left hx]
  constructor
  · rintro ⟨hyL, hy1, hy2⟩
    exact ⟨List.mem_append_left _ hyL, by rw [idxIn_append_left hyL]; exact hy1,
      by rw [idxIn_append_left hyL]; exact hy2⟩
  · rintro ⟨hyL, hy1, hy2⟩
    have hyL1 : y ∈ L1 := by
      by_contra hy
      rw [idxIn_append_right hy] at hy2
      have := idxIn_lt_length hx
      omega
    rw [idxIn_append_left hyL1] at hy1 hy2
    exact ⟨hyL1, hy1, hy2⟩

/-- The interval property of suffix members transfers to the whole list
when the suffix has no adjacency back into the prefix. -/
theorem segSpec_suf_part {adj : Nat → List Nat} {L1 L2 : List Nat}
    (hnd : (L1 ++ L2).Nodup)
    (hnc : ∀ x ∈ L2, ∀ y ∈ adj x, y ∉ L1)
    (h2 : SegSpec adj L2) :
    ∀ x ∈ L2, ∃ i, i ≤ idxIn (L1 ++ L2) x ∧
      ∀ y, (ReachIn adj (L1 ++ L2) x y ↔
        y ∈ L1 ++ L2 ∧ i ≤ idxIn (L1 ++ L2) y ∧
          idxIn (L1 ++ L2) y ≤ idxIn (L1 ++ L2) x) := by
  intro x hx
  have hdisj : L1.Disjoint L2 := (List.nodup_append.mp hnd).2.2
  have hxL1 : x ∉ L1 := fun hm => hdisj hm hx
  obtain ⟨i, hi, hiff⟩ := h2 x hx
  refine ⟨L1.length + i, ?_, ?_⟩
  · rw [idxIn_append_right hxL1]
    omega
  intro y
  rw [reachIn_suf hnd hnc hx, hiff y, idxIn_append_right hxL1]
  constructor
  · rintro ⟨hyL, hy1, hy2⟩
    have hyL1 : y ∉ L1 := fun hm => hdisj hm hyL
    refine ⟨List.mem_append_right _ hyL, ?_, ?_⟩ <;>
      rw [idxIn_append_right hyL1] <;> omega
  · rintro ⟨hyL, hy1, hy2⟩
    have hyL2 : y ∈ L2 := by
      rcases List.mem_append.mp hyL with hm | hm
      · exfalso
        rw [idxIn_append_left hm] at hy1
        have := idxIn_lt_length hm
        omega
      · exact hm
    have hyL1 : y ∉ L1 := fun hm => hdisj hm hyL2
    rw [idxIn_append_right hyL1] at hy1 hy2
    exact ⟨hyL2, by omega, by omega⟩

/-- Concatenating two duplicate-free interval lists with no adjacency
from the second into the first preserves the interval property. -/
theorem segSpec_append {adj : Nat → List Nat} {L1 L2 : List Nat}
    (hnd : (L1 ++ L2).Nodup) (h1 : SegSpec adj L1) (h2 : SegSpec adj L2)
    (hnc : ∀ x ∈ L2, ∀ y ∈ adj x, y ∉ L1) : SegSpec adj (L1 ++ L2) := by
  intro x hx
  rcases List.mem_append.mp hx with hm | hm
  · exact segSpec_pre_part h1 x hm
  · exact segSpec_suf_part hnd hnc h2 x hm

/-- Fold step of the segment invariant: processing a worklist appends
complete, adjacency-separated segments, preserving the interval property,
and every newly emitted node is reachable from some worklist element
along arcs-to-earlier of the accumulated output. -/
theorem dfsFold_seg (adj : Nat → List Nat) (U : List Nat)
    (HadjU : ∀ x y, y ∈ adj x → y ∈ U)
    (Hsym : ∀ x y, y ∈ adj x → x ∈ adj y)
    (f : Nat)
    (hVseg : ∀ vis u, vis.Nodup → u ∉ vis → u ∈ U →
      U.countP (fun x => decide (x ∉ vis)) ≤ f →
      SegSpec adj (dfsVisit adj f vis u).2 ∧ RootSpec adj (dfsVisit adj f vis u).2 u) :
    ∀ (l vis0 out0 : List Nat), vis0.Nodup → (∀ x ∈ out0, x ∈ vis0) → out0.Nodup →
      (∀ w ∈ l, w ∈ U) → U.countP (fun x => decide (x ∉ vis0)) ≤ f →
      (∀ x ∈ out0, ∀ y ∈ adj x, y ∈ vis0) →
      SegSpec adj out0 →
      SegSpec adj (dfsFold (dfsVisit adj f) (vis0, out0) l).2 ∧
      (∀ y ∈ (dfsFold (dfsVisit adj f) (vis0, out0) l).2, y ∉ out0 →
        ∃ w, w ∈ l ∧ w ∈ (dfsFold (dfsVisit adj f) (vis0, out0) l).2 ∧
          ReachIn adj (dfsFold (dfsVisit adj f) (vis0, out0) l).2 w y) := by
  intro l
  induction l with
  | nil =>
    intro vis0 out0 _ _ _ _ _ _ hseg
    rw [dfsFold_nil]
    exact ⟨hseg, fun y hy hny => absurd hy hny⟩
  | cons w ws ih =>
    intro vis0 out0 h1 h2 h3 hlU hcount hJ1 hseg
    rw [dfsFold_cons]
    by_cases hw : w ∈ vis0
    · rw [if_pos hw]
      obtain ⟨hs, hk⟩ := ih vis0 out0 h1 h2 h3
        (fun x hx => hlU x (List.mem_cons_of_mem _ hx)) hcount hJ1 hseg
      refine ⟨hs, ?_⟩
      intro y hy hny
      obtain ⟨w2, hw2l, hw2m, hw2r⟩ := hk y hy hny
      exact ⟨w2, List.mem_cons_of_mem _ hw2l, hw2m, hw2r⟩
    · rw [if_neg hw]
      have hwU : w ∈ U := hlU w (List.mem_cons_self _ _)
      have hf1 : 1 ≤ f := le_trans (one_le_countP_unvis hwU hw) hcount
      obtain ⟨⟨d1, hd1⟩, hmem1, hnd1, hfresh1, hvnd1⟩ := dfsVisit_basic adj f vis0 w h1 hw
      obtain ⟨closed1, _⟩ := dfsVisit_closed adj U HadjU f vis0 w h1 hw hwU hcount
      obtain ⟨hseg1, hroot1⟩ := hVseg vis0 w h1 hw hwU hcount
      have hsub : ∀ x, x ∈ vis0 → x ∈ (dfsVisit adj f vis0 w).1 := by
        intro x hx
        rw [hd1]
        exact List.mem_append_left _ hx
      have hwin : w ∈ (dfsVisit adj f vis0 w).1 := dfsVisit_mem_self adj vis0 w hf1
      have hwout : w ∈ (dfsVisit adj f vis0 w).2 := by
        obtain ⟨p, hp⟩ := dfsVisit_ends adj vis0 w hf1
        rw [hp]
        simp
      have hnc : ∀ x ∈ (dfsVisit adj f vis0 w).2, ∀ y ∈ adj x, y ∉ out0 := by
        intro x hx y hy hyo
        exact hfresh1 x hx (hJ1 y hyo x (Hsym x y hy))
      have hndapp : (out0 ++ (dfsVisit adj f vis0 w).2).Nodup :=
        h3.append hnd1 (fun a ha1 ha2 => hfresh1 a ha2 (h2 a ha1))
      have hsegapp : SegSpec adj (out0 ++ (dfsVisit adj f vis0 w).2) :=
        segSpec_append hndapp hseg hseg1 hnc
      have hcount2 : U.countP (fun x => decide (x ∉ (dfsVisit adj f vis0 w).1)) ≤ f := by
        have hmono := countP_unvis_mono U (vis0 ++ [w])
          ((dfsVisit adj f vis0 w).1)
          (by
            intro x hx
            rcases List.mem_append.mp hx with hx | hx
            · exact hsub x hx
            · rw [List.mem_singleton] at hx
              subst hx
              exact hwin)
        have hdec := countP_unvis_dec hwU hw
        omega
      have hJ1n : ∀ x ∈ out0 ++ (dfsVisit adj f vis0 w).2, ∀ y ∈ adj x,
          y ∈ (dfsVisit adj f vis0 w).1 := by
        intro x hx y hy
        rcases List.mem_append.mp hx with hx | hx
        · exact hsub y (hJ1 x hx y hy)
        · exact closed1 x hx y hy
      have hsub2 : ∀ x ∈ out0 ++ (dfsVisit adj f vis0 w).2, x ∈ (dfsVisit adj f vis0 w).1 := by
        intro x hx
        rcases List.mem_append.mp hx with hx | hx
        · exact hsub x (h2 x hx)
        · exact (hmem1 x).mpr (Or.inr hx)
      obtain ⟨hs2, hk2⟩ := ih (dfsVisit adj f vis0 w).1 (out0 ++ (dfsVisit adj f vis0 w).2)
        hvnd1 hsub2 hndapp
        (fun x hx => hlU x (List.mem_cons_of_mem _ hx)) hcount2 hJ1n hsegapp
      obtain ⟨q2, hq2⟩ :=
        (dfsFold_basic (dfsVisit adj f) (dfsVisit_basic adj f) ws (dfsVisit adj f vis0 w).1
          (out0 ++ (dfsVisit adj f vis0 w).2) hvnd1 hsub2 hndapp).2.2.2.2.2
      refine ⟨hs2, ?_⟩
      intro y hy hny
      by_cases hy2 : y ∈ out0 ++ (dfsVisit adj f vis0 w).2
      · have hys : y ∈ (dfsVisit adj f vis0 w).2 := by
          rcases List.mem_append.mp hy2 with hm | hm
          · exact absurd hm hny
          · exact hm
        have hr1 : ReachIn adj (dfsVisit adj f vis0 w).2 w y := (hroot1 y).mpr hys
        have hr2 : ReachIn adj (out0 ++ (dfsVisit adj f vis0 w).2) w y :=
          (reachIn_suf hndapp hnc hwout).mpr hr1
        have hr3 : ReachIn adj ((out0 ++ (dfsVisit adj f vis0 w).2) ++ q2) w y :=
          (reachIn_pre (List.mem_append_right _ hwout)).mpr hr2
        refine ⟨w, List.mem_cons_self _ _, ?_, ?_⟩
        · rw [hq2]
          exact List.mem_append_left _ (List.mem_append_right _ hwout)
        · rw [hq2]
          exact hr3
      · obtain ⟨w2, hw2l, hw2m, hw2r⟩ := hk2 y hy hy2
        exact ⟨w2, List.mem_cons_of_mem _ hw2l, hw2m, hw2r⟩

/-- Segment structure of one DFS visit: the emitted postorder list has
the subtree-interval property, and the visited root reaches exactly the
whole emitted list along arcs-to-earlier. -/
theorem dfsVisit_seg (adj : Nat → List Nat) (U : List Nat)
    (HadjU : ∀ x y, y ∈ adj x → y ∈ U)
    (Hsym : ∀ x y, y ∈ adj x → x ∈ adj y) :
    ∀ (f : Nat) (vis : List Nat) (u : Nat), vis.Nodup → u ∉ vis → u ∈ U →
      U.countP (fun x => decide (x ∉ vis)) ≤ f →
      SegSpec adj (dfsVisit adj f vis u).2 ∧ RootSpec adj (dfsVisit adj f vis u).2 u := by
  intro f
  induction f with
  | zero =>
    intro vis u _ h2 h3 hcount
    have := one_le_countP_unvis h3 h2
    omega
  | succ f ihf =>
    intro vis u h1 h2 h3 hcount
    rw [dfsVisit_succ]
    dsimp only
    have hvnd : (vis ++ [u]).Nodup := by
      rw [List.nodup_append]
      exact ⟨h1, List.nodup_singleton u, by simpa using h2⟩
    have hcount2 : U.countP (fun x => decide (x ∉ vis ++ [u])) ≤ f := by
      have := countP_unvis_dec h3 h2
      omega
    obtain ⟨hseg1, hk1⟩ := dfsFold_seg adj U HadjU Hsym f ihf (adj u) (vis ++ [u]) []
      hvnd (by simp) List.nodup_nil (fun y hy => HadjU u y hy) hcount2
      (by intro x hx; simp at hx) (segSpec_nil adj)
    have huout : u ∉ (dfsFold (dfsVisit adj f) (vis ++ [u], []) (adj u)).2 := by
      intro hm
      obtain ⟨_, _, _, hfreshFr, _, _⟩ :=
        dfsFold_basic (dfsVisit adj f) (dfsVisit_basic adj f) (adj u) (vis ++ [u]) []
          hvnd (by simp) List.nodup_nil
      rcases hfreshFr u hm with hm2 | hm2
      · simp at hm2
      · exact hm2 (List.mem_append_right _ (List.mem_singleton_self u))
    have hidxu : idxIn ((dfsFold (dfsVisit adj f) (vis ++ [u], []) (adj u)).2 ++ [u]) u =
        (dfsFold (dfsVisit adj f) (vis ++ [u], []) (adj u)).2.length := by
      rw [idxIn_append_right huout]
      simp [idxIn]
    have hroot : ∀ y,
        ReachIn adj ((dfsFold (dfsVisit adj f) (vis ++ [u], []) (adj u)).2 ++ [u]) u y ↔
        y ∈ (dfsFold (dfsVisit adj f) (vis ++ [u], []) (adj u)).2 ++ [u] := by
      intro y
      constructor
      · intro h
        rcases reachIn_mem h with rfl | hm
        · exact List.mem_append_right _ (List.mem_singleton_self _)
        · exact hm
      · intro hy
        rcases List.mem_append.mp hy with hy | hy
        · obtain ⟨w2, hw2adj, hw2out, hw2reach⟩ := hk1 y hy (by simp)
          have hstep : StepIn adj
              ((dfsFold (dfsVisit adj f) (vis ++ [u], []) (adj u)).2 ++ [u]) u w2 := by
            rw [stepIn_def]
            refine ⟨List.mem_append_right _ (List.mem_singleton_self _),
              List.mem_append_left _ hw2out, hw2adj, ?_⟩
            rw [hidxu, idxIn_append_left hw2out]
            exact idxIn_lt_length hw2out
          exact Relation.ReflTransGen.head hstep ((reachIn_pre hw2out).mpr hw2reach)
        · rw [List.mem_singleton] at hy
          subst hy
          exact Relation.ReflTransGen.refl
    refine ⟨?_, hroot⟩
    intro x hx
    rcases List.mem_append.mp hx with hm | hm
    · exact segSpec_pre_part hseg1 x hm
    · rw [List.mem_singleton] at hm
      subst hm
      refine ⟨0, Nat.zero_le _, ?_⟩
      intro y
      rw [hroot y]
      constructor
      · intro hy
        refine ⟨hy, Nat.zero_le _, ?_⟩
        rw [hidxu]
        have := idxIn_lt_length hy
        rw [List.length_append, List.length_singleton] at this
        omega
      · rintro ⟨hy, _, _⟩
        exact hy

/-- The DFS postorder computed by `postorder_tree` has the
subtree-interval property, and the root's interval is the whole order. -/
theorem runOrder_seg {g t : Gr} {root : Nat} (hv : ValidInput g t root) :
    SegSpec (arcAdj (to_directed t)) (runOrder t false root) ∧
    RootSpec (arcAdj (to_directed t)) (runOrder t false root) root := by
  obtain ⟨hroot, hte, _, _, _, _, _⟩ := validInput_facts hv
  have HadjU : ∀ x y, y ∈ arcAdj (to_directed t) x → y ∈ t.nodes := by
    intro x y hy
    obtain ⟨e, he, h | h⟩ := arcAdj_to_directed_mem.mp hy
    · have := (hte e he).2
      rw [h] at this
      exact this
    · have := (hte e he).1
      rw [h] at this
      exact this
  have Hsym : ∀ x y, y ∈ arcAdj (to_directed t) x → x ∈ arcAdj (to_directed t) y :=
    fun x y => arcAdj_to_directed_sym
  have hcount : t.nodes.countP (fun x => decide (x ∉ ([] : List Nat))) ≤ t.nodes.length := by
    have : t.nodes.countP (fun x => decide (x ∉ ([] : List Nat))) = t.nodes.length :=
      List.countP_eq_length.mpr fun a _ => by simp
    omega
  have h := dfsVisit_seg (arcAdj (to_directed t)) t.nodes HadjU Hsym t.nodes.length []
    root List.nodup_nil (by simp) hroot hcount
  unfold runOrder
  rw [if_neg (by simp)]
  exact h

/-- The pruned forest's adjacency is exactly the arcs-to-earlier step
relation of the postorder. -/
theorem arcAdj_runArcs_iff {g t : Gr} {root : Nat} (hv : ValidInput g t root)
    {x y : Nat} :
    y ∈ arcAdj (runArcs t false root) x ↔
      StepIn (arcAdj (to_directed t)) (runOrder t false root) x y := by
  obtain ⟨hroot, hte, hns, hconn, _, _, _⟩ := validInput_facts hv
  obtain ⟨hcov, hnd⟩ := runOrder_covers hroot hte hns hconn
  rw [mem_arcAdj, stepIn_def]
  unfold runArcs
  constructor
  · intro hmem
    have hmem0 : (x, y) ∈ to_directed t :=
      (pruneArcs_sublist _ _ hnd).subset hmem
    obtain ⟨hxT, hyT, hxyne⟩ := arc_endpoints hte hns hmem0
    have hxL : x ∈ runOrder t false root := (hcov x).mpr hxT
    have hyL : y ∈ runOrder t false root := (hcov y).mpr hyT
    have hle : idxIn (runOrder t false root) y ≤ idxIn (runOrder t false root) x :=
      ((pruneArcs_mem hnd hxL).mp hmem).2
    have hadj : y ∈ arcAdj (to_directed t) x := mem_arcAdj.mpr hmem0
    refine ⟨hxL, hyL, hadj, ?_⟩
    rcases Nat.lt_or_ge (idxIn (runOrder t false root) y) (idxIn (runOrder t false root) x)
      with h | h
    · exact h
    · exfalso
      have heq : idxIn (runOrder t false root) y = idxIn (runOrder t false root) x := by
        omega
      exact hxyne (idxIn_inj hyL hxL heq).symm
  · rintro ⟨hxL, hyL, hadj, hlt⟩
    exact (pruneArcs_mem hnd hxL).mpr ⟨mem_arcAdj.mp hadj, Nat.le_of_lt hlt⟩

/-- Reachability in the pruned forest is reachability along
arcs-to-earlier of the postorder. -/
theorem reaches_runArcs_iff {g t : Gr} {root : Nat} (hv : ValidInput g t root)
    {x y : Nat} :
    Reaches (arcAdj (runArcs t false root)) x y ↔
      ReachIn (arcAdj (to_directed t)) (runOrder t false root) x y := by
  constructor
  · intro h
    exact Relation.ReflTransGen.mono
      (fun a b hab => (arcAdj_runArcs_iff hv).mp hab) h
  · intro h
    exact Relation.ReflTransGen.mono
      (fun a b hab => (arcAdj_runArcs_iff hv).mpr hab) h

/-! ## Infrastructure: completeness and duplicate-freeness of `closure` -/

theorem mem_expandStep {step : Nat → List Nat} {l : List Nat} {z : Nat} :
    z ∈ expandStep step l ↔ z ∈ l ∨ ∃ a ∈ l, z ∈ step a := by
  unfold expandStep
  rw [List.mem_dedup, List.mem_append, List.mem_flatMap]

theorem subset_closure (step : Nat → List Nat) :
    ∀ (f : Nat) (l : List Nat) (x : Nat), x ∈ l → x ∈ closure step f l := by
  intro f
  induction f with
  | zero =>
    intro l x hx
    exact hx
  | succ f ih =>
    intro l x hx
    exact ih (expandStep step l) x (mem_expandStep.mpr (Or.inl hx))

theorem closure_mono (step : Nat → List Nat) :
    ∀ (f : Nat) (l1 l2 : List Nat), (∀ x ∈ l1, x ∈ l2) →
      ∀ x ∈ closure step f l1, x ∈ closure step f l2 := by
  intro f
  induction f with
  | zero =>
    intro l1 l2 hsub x hx
    exact hsub x hx
  | succ f ih =>
    intro l1 l2 hsub x hx
    refine ih (expandStep step l1) (expandStep step l2) ?_ x hx
    intro z hz
    rcases mem_expandStep.mp hz with hz | ⟨a, ha, hz⟩
    · exact mem_expandStep.mpr (Or.inl (hsub z hz))
    · exact mem_expandStep.mpr (Or.inr ⟨a, hsub a ha, hz⟩)

/-- Completeness of the iterated expansion: when every step strictly
decreases some measure, anything reachable from `a` is found within
`mu a` rounds. -/
theorem closure_complete {step : Nat → List Nat} {mu : Nat → Nat}
    (Hdec : ∀ a b, b ∈ step a → mu b < mu a) {a y : Nat}
    (h : Reaches step a y) : ∀ f, mu a ≤ f → y ∈ closure step f [a] := by
  have h2 : Relation.ReflTransGen (fun p q => q ∈ step p) a y := h
  clear h
  induction h2 using Relation.ReflTransGen.head_induction_on with
  | refl =>
    intro f _
    exact subset_closure step f [y] y (List.mem_singleton_self y)
  | @head a2 c hstep _ ih =>
    intro f hf
    have hlt := Hdec _ _ hstep
    cases f with
    | zero => omega
    | succ f =>
      have hy := ih f (by omega)
      show y ∈ closure step f (expandStep step [a2])
      refine closure_mono step f [c] (expandStep step [a2]) ?_ y hy
      intro z hz
      rw [List.mem_singleton] at hz
      subst hz
      exact mem_expandStep.mpr (Or.inr ⟨a2, List.mem_singleton_self _, hstep⟩)

theorem closure_succ_nodup (step : Nat → List Nat) :
    ∀ (f : Nat) (l : List Nat), (closure step (f + 1) l).Nodup := by
  intro f
  induction f with
  | zero =>
    intro l
    exact List.nodup_dedup _
  | succ f ih =>
    intro l
    exact ih (expandStep step l)

/-! ## Infrastructure: contiguous ranges and sorting (for C6) -/

theorem range'_cons (m k : Nat) : List.range' m (k + 1) = m :: List.range' (m + 1) k := rfl

theorem mem_range'_iff : ∀ (k m r : Nat), r ∈ List.range' m k ↔ m ≤ r ∧ r < m + k := by
  intro k
  induction k with
  | zero =>
    intro m r
    show r ∈ ([] : List Nat) ↔ m ≤ r ∧ r < m + 0
    simp

  | succ k ih =>
    intro m r
    rw [range'_cons, List.mem_cons, ih (m + 1) r]
    omega

theorem range'_nodup : ∀ (k m : Nat), (List.range' m k).Nodup := by
  intro k
  induction k with
  | zero =>
    intro m
    exact List.nodup_nil
  | succ k ih =>
    intro m
    rw [range'_cons, List.nodup_cons]
    refine ⟨?_, ih (m + 1)⟩
    rw [mem_range'_iff]
    omega

theorem range'_sorted : ∀ (k m : Nat), List.Sorted (· ≤ ·) (List.range' m k) := by
  intro k
  induction k with
  | zero =>
    intro m
    exact List.sorted_nil
  | succ k ih =>
    intro m
    rw [range'_cons, List.sorted_cons]
    refine ⟨?_, ih (m + 1)⟩
    intro b hb
    rw [mem_range'_iff] at hb
    omega

theorem range'_headD (m k : Nat) : (List.range' m (k + 1)).headD 0 = m := by
  rw [range'_cons]
  rfl

theorem getLastD_congr : ∀ (l : List Nat) (a b : Nat), l ≠ [] →
    l.getLastD a = l.getLastD b := by
  intro l a b hl
  cases l with
  | nil => exact absurd rfl hl
  | cons c l2 => rw [List.getLastD_cons, List.getLastD_cons]

theorem range'_getLastD : ∀ (k m : Nat), (List.range' m (k + 1)).getLastD 0 = m + k := by
  intro k
  induction k with
  | zero =>
    intro m
    rfl
  | succ k ih =>
    intro m
    rw [range'_cons, List.getLastD_cons]
    have hne : List.range' (m + 1) (k + 1) ≠ [] := by
      rw [range'_cons]
      exact List.cons_ne_nil _ _
    rw [getLastD_congr _ m 0 hne, ih (m + 1)]
    omega

/-- Every position below the length of a duplicate-free list is the
position of one of its members. -/
theorem exists_idxIn : ∀ (l : List Nat), l.Nodup → ∀ (j : Nat), j < l.length →
    ∃ y ∈ l, idxIn l y = j := by
  intro l
  induction l with
  | nil =>
    intro _ j hj
    simp at hj
  | cons a l2 ih =>
    intro hnd j hj
    rw [List.nodup_cons] at hnd
    cases j with
    | zero =>
      refine ⟨a, List.mem_cons_self _ _, ?_⟩
      simp [idxIn]
    | succ j =>
      have hj2 : j < l2.length := by
        rw [List.length_cons] at hj
        omega
      obtain ⟨y, hy, hidx⟩ := ih hnd.2 j hj2
      have hay : ¬ a = y := fun hh => hnd.1 (hh ▸ hy)
      refine ⟨y, List.mem_cons_of_mem _ hy, ?_⟩
      simp only [idxIn, if_neg hay]
      omega

/-- A duplicate-free list whose members are exactly an integer interval
sorts to the corresponding contiguous range. -/
theorem sorted_eq_range' {l : List Nat} (hnd : l.Nodup) {m k : Nat}
    (hmem : ∀ r, r ∈ l ↔ m ≤ r ∧ r < m + k) :
    l.insertionSort (· ≤ ·) = List.range' m k := by
  have hperm1 : (l.insertionSort (· ≤ ·)).Perm l := List.perm_insertionSort _ l
  have hperm2 : l.Perm (List.range' m k) := by
    rw [List.perm_ext_iff_of_nodup hnd (range'_nodup k m)]
    intro r
    rw [hmem r, mem_range'_iff]
  exact List.eq_of_perm_of_sorted (hperm1.trans hperm2)
    (List.sorted_insertionSort _ l) (range'_sorted k m)

theorem find?_map_self {u : Nat} (gf : Nat → List Nat) :
    ∀ (l : List Nat), u ∈ l →
      (l.map fun x => (x, gf x)).find? (fun kv => decide (kv.1 = u)) = some (u, gf u) := by
  intro l
  induction l with
  | nil =>
    intro hu
    simp at hu
  | cons a l2 ih =>
    intro hu
    rw [List.map_cons]
    by_cases hau : a = u
    · subst hau
      rw [List.find?_cons_of_pos _ (by simp)]
    · rw [List.find?_cons_of_neg _ (by simp [hau])]
      refine ih ?_
      rcases List.mem_cons.mp hu with rfl | hm
      · exact absurd rfl hau
      · exact hm

/-- Looking a traversed node up in the descendants table returns its
computed descendant rank list. -/
theorem descLookup_runDesc {t : Gr} {root u : Nat} (ordered : Bool)
    (hu : u ∈ runOrder t ordered root) :
    descLookup (runDesc t ordered root) u =
      descOf (runArcs t ordered root) (runOrder t ordered root) u := by
  unfold descLookup runDesc
  rw [find?_map_self _ _ hu]
  rfl

/-- For valid input on the DFS path, every tree node's computed
descendant rank list is a contiguous range ending at its own rank. -/
theorem descOf_range {g t : Gr} {root : Nat} (hv : ValidInput g t root)
    {u : Nat} (hu : u ∈ t.nodes) :
    ∃ m k, 1 ≤ k ∧
      descOf (runArcs t false root) (runOrder t false root) u = List.range' m k ∧
      m + k = rankOf (runOrder t false root) u + 1 := by
  obtain ⟨hroot, hte, hns, hconn, _, _, _⟩ := validInput_facts hv
  obtain ⟨hcov, hnd⟩ := runOrder_covers hroot hte hns hconn
  obtain ⟨hseg, _⟩ := runOrder_seg hv
  have huL : u ∈ runOrder t false root := (hcov u).mpr hu
  obtain ⟨i, hi, hiff⟩ := hseg u huL
  have hmemC : ∀ y, y ∈ closure (arcAdj (runArcs t false root))
      (runOrder t false root).length [u] ↔
      ReachIn (arcAdj (to_directed t)) (runOrder t false root) u y := by
    intro y
    constructor
    · intro hy
      obtain ⟨s, hs, hr⟩ := closure_sound _ _ _ _ hy
      rw [List.mem_singleton] at hs
      subst hs
      exact (reaches_runArcs_iff hv).mp hr
    · intro hy
      have hr : Reaches (arcAdj (runArcs t false root)) u y :=
        (reaches_runArcs_iff hv).mpr hy
      have hdec : ∀ a b, b ∈ arcAdj (runArcs t false root) a →
          idxIn (runOrder t false root) b < idxIn (runOrder t false root) a := by
        intro a b hab
        exact (stepIn_def.mp ((arcAdj_runArcs_iff hv).mp hab)).2.2.2
      exact closure_complete hdec hr (runOrder t false root).length
        (Nat.le_of_lt (idxIn_lt_length huL))
  have hLne : 1 ≤ (runOrder t false root).length :=
    List.length_pos.mpr (List.ne_nil_of_mem huL)
  obtain ⟨n, hn⟩ : ∃ n, (runOrder t false root).length = n + 1 :=
    ⟨(runOrder t false root).length - 1, by omega⟩
  have hCnd : (closure (arcAdj (runArcs t false root))
      (runOrder t false root).length [u]).Nodup := by
    rw [hn]
    exact closure_succ_nodup _ n [u]
  have hCsub : ∀ y ∈ closure (arcAdj (runArcs t false root))
      (runOrder t false root).length [u], y ∈ runOrder t false root := by
    intro y hy
    rcases reachIn_mem ((hmemC y).mp hy) with rfl | hm
    · exact huL
    · exact hm
  have hmapnd : ((closure (arcAdj (runArcs t false root))
      (runOrder t false root).length [u]).map
        (rankOf (runOrder t false root))).Nodup := by
    refine List.Nodup.map_on ?_ hCnd
    intro x hx y hy hxy
    unfold rankOf at hxy
    exact idxIn_inj (hCsub x hx) (hCsub y hy) (by omega)
  have hmapmem : ∀ r, r ∈ (closure (arcAdj (runArcs t false root))
      (runOrder t false root).length [u]).map (rankOf (runOrder t false root)) ↔
      i + 1 ≤ r ∧ r < idxIn (runOrder t false root) u + 2 := by
    intro r
    rw [List.mem_map]
    constructor
    · rintro ⟨y, hy, rfl⟩
      have hb := (hiff y).mp ((hmemC y).mp hy)
      unfold rankOf
      omega
    · rintro ⟨h1, h2⟩
      obtain ⟨y, hyL, hyidx⟩ := exists_idxIn (runOrder t false root) hnd (r - 1)
        (by
          have := idxIn_lt_length huL
          omega)
      refine ⟨y, ?_, ?_⟩
      · rw [hmemC y, hiff y]
        exact ⟨hyL, by omega, by omega⟩
      · unfold rankOf
        omega
  unfold descOf
  refine ⟨i + 1, idxIn (runOrder t false root) u + 1 - i, by omega, ?_, ?_⟩
  · refine sorted_eq_range' hmapnd ?_
    intro r
    rw [hmapmem r]
    constructor
    · rintro ⟨h1, h2⟩
      exact ⟨h1, by omega⟩
    · rintro ⟨h1, h2⟩
      exact ⟨h1, by omega⟩
  · unfold rankOf
    omega

/-- C6 amended: on the genuine DFS postorder pass (ordered = false), for
every valid input and every tree node, the computed descendant index set
is a contiguous integer range of ranks whose maximum is the node's own
rank; consequently, for every candidate rank, the three classification
cases of step 2.1 (below the minimum, member of the set, above the
maximum) are exhaustive and mutually exclusive.  (The trusted fast path
ordered = true breaks contiguity, see the counterexample.) -/
theorem C6_amended (g t : Gr) (root : Nat) (hv : ValidInput g t root)
    (u : Nat) (hu : u ∈ t.nodes) :
    ∃ m k, 1 ≤ k ∧
      descLookup (runDesc t false root) u = List.range' m k ∧
      m + k = rankOf (runOrder t false root) u + 1 ∧
      ∀ r : Nat,
        (r < (descLookup (runDesc t false root) u).headD 0 ∨
          r ∈ descLookup (runDesc t false root) u ∨
          (descLookup (runDesc t false root) u).getLastD 0 < r) ∧
        ¬ (r < (descLookup (runDesc t false root) u).headD 0 ∧
            r ∈ descLookup (runDesc t false root) u) ∧
        ¬ (r ∈ descLookup (runDesc t false root) u ∧
            (descLookup (runDesc t false root) u).getLastD 0 < r) ∧
        ¬ (r < (descLookup (runDesc t false root) u).headD 0 ∧
            (descLookup (runDesc t false root) u).getLastD 0 < r) := by
  obtain ⟨hroot, hte, hns, hconn, _, _, _⟩ := validInput_facts hv
  obtain ⟨hcov, _⟩ := runOrder_covers hroot hte hns hconn
  have huL : u ∈ runOrder t false root := (hcov u).mpr hu
  obtain ⟨m, k, hk, hdesc, hsum⟩ := descOf_range hv hu
  have hdl : descLookup (runDesc t false root) u = List.range' m k := by
    rw [descLookup_runDesc false huL]
    exact hdesc
  obtain ⟨k2, rfl⟩ : ∃ k2, k = k2 + 1 := ⟨k - 1, by omega⟩
  refine ⟨m, k2 + 1, hk, hdl, hsum, ?_⟩
  intro r
  rw [hdl, range'_headD, range'_getLastD, mem_range'_iff]
  omega

/-- C6 amended, witness: node 2 of the 4-path scenario rooted at 1. -/
theorem C6_amended_witness :
    ValidInput g4 t4 1 ∧ (2 ∈ t4.nodes) ∧
    (∃ m k, 1 ≤ k ∧
      descLookup (runDesc t4 false 1) 2 = List.range' m k ∧
      m + k = rankOf (runOrder t4 false 1) 2 + 1 ∧
      ∀ r : Nat,
        (r < (descLookup (runDesc t4 false 1) 2).headD 0 ∨
          r ∈ descLookup (runDesc t4 false 1) 2 ∨
          (descLookup (runDesc t4 false 1) 2).getLastD 0 < r) ∧
        ¬ (r < (descLookup (runDesc t4 false 1) 2).headD 0 ∧
            r ∈ descLookup (runDesc t4 false 1) 2) ∧
        ¬ (r ∈ descLookup (runDesc t4 false 1) 2 ∧
            (descLookup (runDesc t4 false 1) 2).getLastD 0 < r) ∧
        ¬ (r < (descLookup (runDesc t4 false 1) 2).headD 0 ∧
            (descLookup (runDesc t4 false 1) 2).getLastD 0 < r)) :=
  ⟨by decide, by decide, C6_amended g4 t4 1 (by decide) 2 (by decide)⟩

end Yamada
